import Mathlib

/-!
Verification of the variant-to-region assignment and sequence-mutation engine
of `kipoi_veff/snv_predict.py`.

The Python source is shallowly embedded: every function below mirrors the
control flow of its Python namesake.  Python exceptions (assert, KeyError,
IndexError, Exception) are modelled with `Except String`; `None` results are
modelled with `Option`; NumPy arrays and Python lists become `List`; Python
dicts become association lists in insertion order.
-/

/-- Variant record as exposed by a cyvcf2 handle: chromosome name, 1-based
position `POS`, reference allele string `REF`, first alternate allele string
`ALT0`, and the record identifier `rid` that identifier-generator callables
may read. -/
structure VariantRecord where
  chrom : String
  POS : Int
  REF : String
  ALT0 : String
  rid : String
  deriving DecidableEq, Repr

/-- Modelled from the spec: `is_indel_wrapper` lives in `kipoi_veff.utils`
(not under the sources given here); per the spec an indel record is one with
`len(REF) != 1 or len(ALT[0]) != 1`. -/
def is_indel_wrapper (r : VariantRecord) : Bool :=
  r.REF.length ≠ 1 || r.ALT0.length ≠ 1

/-- Strand entry of a GenomicRanges metadata dictionary: missing key, a
metadata-wide scalar string, or one strand string per row. -/
inductive StrandField where
  | absent
  | scalar (s : String)
  | perRow (l : List String)
  deriving DecidableEq, Repr

/-- GenomicRanges-compliant dictionary of parallel columns, exactly the shape
the dataloader metadata carries: 0-based half-open `start`/`end_` bounds. -/
structure Ranges where
  chr : List String
  start : List Int
  end_ : List Int
  strand : StrandField
  id : Option (List String)
  deriving DecidableEq, Repr

/-- Replace every occurrence of the three-character pattern `chr` by the empty
string, scanning left to right; this is Python `s.replace("chr", "")`. -/
def replaceChr : List Char → List Char
  | 'c' :: 'h' :: 'r' :: rest => replaceChr rest
  | c :: rest => c :: replaceChr rest
  | [] => []

/-- String form of `replaceChr`. -/
def strip_chr (s : String) : String := ⟨replaceChr s.data⟩

/-- Boolean equality of the sets underlying two lists, Python
`set(a) == set(b)`. -/
def listSetEqB (a b : List String) : Bool :=
  a.all (· ∈ b) && b.all (· ∈ a)

/-- Embedding of `homogenise_seqname(query_seqname, possible_seqnames)`.
Python returns a string, falls off the end returning `None`, or raises; hence
the result type `Except String (Option String)`. -/
def homogenise_seqname (query_seqname : String) (possible_seqnames : List String) :
    Except String (Option String) :=
  let possible_seqnames_stripped := possible_seqnames.map strip_chr
  let query_seqname_stripped := strip_chr query_seqname
  if query_seqname ∈ possible_seqnames then
    Except.ok (some query_seqname)
  else
    if possible_seqnames_stripped.dedup.length ≠ possible_seqnames.dedup.length then
      Except.error "Seqnames are not unique after removing chr"
    else
      let no_pref := listSetEqB possible_seqnames_stripped possible_seqnames
      if query_seqname_stripped ∈ possible_seqnames_stripped then
        if no_pref then Except.ok (some query_seqname_stripped)
        else Except.ok (some ("chr" ++ query_seqname_stripped))
      else
        Except.ok none

/-- Variant-source handle: the chromosome names it knows and its records in
file order.  Region queries and single sequential iteration both read
`records`. -/
structure VcfHandle where
  seqnames : List String
  records : List VariantRecord
  deriving DecidableEq, Repr

/-- Python formats the query string with `"{0}:{1}-{2}".format(chr_label, ..)`;
a `None` label is formatted as the literal string `None`. -/
def formatChrLabel : Option String → String
  | some s => s
  | none => "None"

/-- Region-bounded 1-based closed tabix query `chrom:start-stop` against the
handle, in file order. -/
def vcfQuery (vcf_obj : VcfHandle) (chrom : String) (start stop : Int) :
    List VariantRecord :=
  vcf_obj.records.filter
    (fun r => r.chrom == chrom && decide (start ≤ r.POS) && decide (r.POS ≤ stop))

/-- Unwrap an optional value, raising the given message like a Python
IndexError / KeyError. -/
def expectOr {α : Type} (o : Option α) (msg : String) : Except String α :=
  match o with
  | some v => Except.ok v
  | none => Except.error msg

/-- Loop body of `_overlap_vcf_region`: iterate `i` over the region rows,
convert the 0-based `[start, end)` row to the 1-based closed query
`start+1 .. end`, collect non-indel hits (when `exclude_indels`) paired with
their region index. -/
def overlapGo (vcf_obj : VcfHandle) (regions : Ranges) (exclude_indels : Bool) :
    Nat → List String → Except String (List VariantRecord × List Nat)
  | _, [] => Except.ok ([], [])
  | i, c :: rest => do
    let chr_label ← homogenise_seqname c vcf_obj.seqnames
    let s ← expectOr (regions.start.get? i) "IndexError: start"
    let e ← expectOr (regions.end_.get? i) "IndexError: end"
    let variants := vcfQuery vcf_obj (formatChrLabel chr_label) (s + 1) e
    let kept := if exclude_indels then
        variants.filter (fun r => ! is_indel_wrapper r)
      else variants
    let rest_res ← overlapGo vcf_obj regions exclude_indels (i + 1) rest
    Except.ok (kept ++ rest_res.1, List.replicate kept.length i ++ rest_res.2)

/-- Embedding of `_overlap_vcf_region(vcf_obj, regions, exclude_indels=True)`:
returns the matching records and, per record, the index of the region row that
matched. -/
def _overlap_vcf_region (vcf_obj : VcfHandle) (regions : Ranges)
    (exclude_indels : Bool) : Except String (List VariantRecord × List Nat) :=
  overlapGo vcf_obj regions exclude_indels 0 regions.chr

/-- Embedding of `get_genomicranges_line(gr_obj, i)`: the one-row slice
`[i:i+1]` of every column (an out-of-range Python slice is empty, not an
error). -/
def get_genomicranges_line (gr_obj : Ranges) (i : Nat) : Ranges :=
  { chr := (gr_obj.chr.drop i).take 1
    start := (gr_obj.start.drop i).take 1
    end_ := (gr_obj.end_.drop i).take 1
    strand := match gr_obj.strand with
      | .perRow l => .perRow ((l.drop i).take 1)
      | s => s
    id := gr_obj.id.map (fun l => (l.drop i).take 1) }

/-- One row of the `preproc_conv` table assembled by `get_variants_df`; `nan`
cells are `none`. -/
structure PreprocRow where
  pp_line : Nat
  varpos_rel : Option Int
  ref : Option String
  alt : Option String
  start : Option Int
  end_ : Option Int
  id : String
  do_mutate : Bool
  strand : Option String
  deriving DecidableEq, Repr

/-- Per-record body of the `get_variants_df` loop: assert the record is no
indel, read the sample row index, the identifier and the affected-field list
for assignment `i`, and if `seq_key` is affected localise the variant inside
the row's region, keeping the values only when the relative position passes
the bound check. -/
def processRecord (seq_key : String) (ranges_input_obj : Ranges) (i : Nat)
    (record : VariantRecord) (line? : Option Nat) (pid? : Option String)
    (fl? : Option (List String)) : Except String PreprocRow :=
  if is_indel_wrapper record then
    Except.error "AssertionError: indel record in get_variants_df"
  else do
    let ranges_input_i ← expectOr line? "IndexError: process_lines"
    let pid ← expectOr pid? "IndexError: process_ids"
    let fl ← expectOr fl? "IndexError: process_seq_fields"
    let base : PreprocRow :=
      { pp_line := i, varpos_rel := none, ref := none, alt := none,
        start := none, end_ := none, id := pid, do_mutate := false,
        strand := none }
    if seq_key ∈ fl then do
      let s0 ← expectOr (ranges_input_obj.start.get? ranges_input_i)
        "IndexError: ranges start"
      let e0 ← expectOr (ranges_input_obj.end_.get? ranges_input_i)
        "IndexError: ranges end"
      let s := s0 + 1
      let varpos_rel := record.POS - s
      if ¬ (varpos_rel < 0 ∨ varpos_rel > e0 - s + 1) then do
        let strand? ← match ranges_input_obj.strand with
          | .perRow l => do
            let v ← expectOr (l.get? ranges_input_i) "IndexError: ranges strand"
            pure (some v)
          | _ => pure none
        Except.ok { base with
            start := some s
            end_ := some e0
            varpos_rel := some varpos_rel
            do_mutate := true
            ref := some record.REF
            alt := some record.ALT0
            strand := strand? }
      else
        Except.ok base
    else
      Except.ok base

/-- Enumerated loop of `get_variants_df` over the assignment records. -/
def getVariantsDfGo (seq_key : String) (ranges_input_obj : Ranges)
    (process_lines : List Nat) (process_ids : List String)
    (process_seq_fields : List (List String)) :
    Nat → List VariantRecord → Except String (List PreprocRow)
  | _, [] => Except.ok []
  | i, record :: rs => do
    let row ← processRecord seq_key ranges_input_obj i record
      (process_lines.get? i) (process_ids.get? i) (process_seq_fields.get? i)
    let rest ← getVariantsDfGo seq_key ranges_input_obj process_lines
      process_ids process_seq_fields (i + 1) rs
    Except.ok (row :: rest)

/-- Embedding of `get_variants_df(seq_key, ranges_input_obj, vcf_records,
process_lines, process_ids, process_seq_fields)`: the per-record loop followed
by the strand fix-up (broadcast a scalar strand, default `*` when absent;
per-row strand was already collected inside the loop). -/
def get_variants_df (seq_key : String) (ranges_input_obj : Ranges)
    (vcf_records : List VariantRecord) (process_lines : List Nat)
    (process_ids : List String) (process_seq_fields : List (List String)) :
    Except String (List PreprocRow) := do
  let rows ← getVariantsDfGo seq_key ranges_input_obj process_lines process_ids
    process_seq_fields 0 vcf_records
  match ranges_input_obj.strand with
  | .perRow _ => Except.ok rows
  | .absent => Except.ok (rows.map (fun r => { r with strand := some "*" }))
  | .scalar s => Except.ok (rows.map (fun r => { r with strand := some s }))

/-- Interval as stored in an `intervaltree.IntervalTree`: begin, end and the
data payload (here always a list of originating field names). -/
structure Iv where
  b : Int
  e : Int
  data : List String
  deriving DecidableEq, Repr

/-- Lexicographic comparison of char lists by code point, Python string
comparison. -/
def charListLeB : List Char → List Char → Bool
  | [], _ => true
  | _ :: _, [] => false
  | a :: as, b :: bs =>
    if a.toNat < b.toNat then true
    else if b.toNat < a.toNat then false
    else charListLeB as bs

/-- String form of `charListLeB`. -/
def strLeB (s t : String) : Bool := charListLeB s.data t.data

/-- Lexicographic comparison of string lists, Python list comparison. -/
def strListLeB : List String → List String → Bool
  | [], _ => true
  | _ :: _, [] => false
  | a :: as, b :: bs => if a = b then strListLeB as bs else strLeB a b

/-- Python `sorted` on `Interval` namedtuples compares the `(begin, end, data)`
tuples lexicographically. -/
def ivLeB (x y : Iv) : Bool :=
  if x.b = y.b then
    if x.e = y.e then strListLeB x.data y.data
    else decide (x.e < y.e)
  else decide (x.b < y.b)

/-- Propositional form of `ivLeB`, the sort order used by
`IntervalTree.merge_overlaps`. -/
def IvLe (x y : Iv) : Prop := ivLeB x y = true

instance : DecidableRel IvLe := fun x y => by
  unfold IvLe; infer_instance

/-- Inner sweep of `IntervalTree.merge_overlaps(data_reducer=lambda x, y:
x+y)`: `cur` is the last merged interval (`merged[-1]`) and the incoming
sorted intervals are folded into it.  The default `strict=True` merges the
incoming interval into `cur` only when `higher.begin < lower.end`; data
payloads are concatenated by the reducer. -/
def sweepAux (cur : Iv) : List Iv → List Iv
  | [] => [cur]
  | y :: rest =>
    if y.b < cur.e then
      sweepAux { b := cur.b, e := max cur.e y.e, data := cur.data ++ y.data } rest
    else
      cur :: sweepAux y rest

/-- Sweep loop of `IntervalTree.merge_overlaps` over the sorted interval
list. -/
def sweep : List Iv → List Iv
  | [] => []
  | x :: xs => sweepAux x xs

/-- Accumulator loop keeping the first appearance of every element. -/
def dedupKeepFirstAux (seen : List String) : List String → List String
  | [] => []
  | a :: rest =>
    if a ∈ seen then dedupKeepFirstAux seen rest
    else a :: dedupKeepFirstAux (a :: seen) rest

/-- Keep the first appearance of every element: Python dict-key insertion
order for the per-chromosome trees. -/
def dedupKeepFirst (l : List String) : List String :=
  dedupKeepFirstAux [] l

/-- Extract the single region of one field of the `ranges_dict` argument of
`merge_intervals`: the `assert len(...) == 1`, the `[0]` reads, and the
ValueError that `IntervalTree` raises when inserting a null interval
(`start >= end`). -/
def extractRegion1 (r : Ranges) : Except String (String × Int × Int) := do
  if r.chr.length ≠ 1 then
    Except.error "AssertionError: region with a single row expected"
  else do
    let c ← expectOr (r.chr.get? 0) "IndexError: chr"
    let s ← expectOr (r.start.get? 0) "IndexError: start"
    let e ← expectOr (r.end_.get? 0) "IndexError: end"
    if s ≥ e then Except.error "ValueError: null interval not allowed"
    else Except.ok (c, s, e)

/-- Extraction loop of `merge_intervals` over the field dictionary. -/
def extractEntries : List (String × Ranges) →
    Except String (List (String × String × Int × Int))
  | [] => Except.ok []
  | (k, r) :: rest => do
    let cse ← extractRegion1 r
    let es ← extractEntries rest
    Except.ok ((k, cse) :: es)

/-- Tree interval inserted for one extracted entry: payload is the singleton
field-name list. -/
def entryIv (x : String × String × Int × Int) : Iv :=
  { b := x.2.2.1, e := x.2.2.2, data := [x.1] }

/-- Intervals inserted into the tree of chromosome `c`. -/
def chromIvals (es : List (String × String × Int × Int)) (c : String) :
    List Iv :=
  (es.filter (fun x => decide (x.2.1 = c))).map entryIv

/-- Merged intervals of the tree of chromosome `c`: sort, then sweep. -/
def mergeChrom (es : List (String × String × Int × Int)) (c : String) :
    List Iv :=
  sweep (List.insertionSort IvLe (chromIvals es c))

/-- All merged intervals, labelled with their chromosome, tree by tree in
first-appearance chromosome order. -/
def mergeCore (es : List (String × String × Int × Int)) : List (String × Iv) :=
  ((dedupKeepFirst (es.map (fun x => x.2.1))).map
    (fun c => (mergeChrom es c).map (fun iv => (c, iv)))).flatten

/-- Embedding of `merge_intervals(ranges_dict)`: returns the merged
GenomicRanges dictionary (strand reported as a `*` wildcard per merged row)
and, per merged row, the provenance field-name list. -/
def merge_intervals (ranges_dict : List (String × Ranges)) :
    Except String (Ranges × List (List String)) := do
  let es ← extractEntries ranges_dict
  let merged := mergeCore es
  Except.ok
    ({ chr := merged.map (fun x => x.1)
       start := merged.map (fun x => x.2.b)
       end_ := merged.map (fun x => x.2.e)
       strand := .perRow (merged.map (fun _ => "*"))
       id := none },
     merged.map (fun x => x.2.data))

/-- Embedding of `merge_intervals_strandaware(ranges_dict)`.  Per field the
Python body asserts the single row, then builds
`chr_str = [ranges_dict[k]["chr"][0], ranges_dict[k]["strand"][0]]` — a
KeyError when the regions carry no `strand` key, an IndexError when the
strand column (or a scalar strand string) is empty — reads `start[0]` and
`end[0]`, and only then evaluates `chr_str not in chrom_trees`, which hashes
the list `chr_str`: when the reads succeed, the first iteration raises
`TypeError: unhashable type: 'list'` before any interval is inserted. -/
def merge_intervals_strandaware (ranges_dict : List (String × Ranges)) :
    Except String (Ranges × List (List String)) :=
  match ranges_dict with
  | [] =>
    Except.ok
      ({ chr := [], start := [], end_ := [], strand := .perRow [], id := none }, [])
  | (_, r) :: _ =>
    if r.chr.length ≠ 1 then
      Except.error "AssertionError: region with a single row expected"
    else do
      let _ ← expectOr (r.chr.get? 0) "IndexError: chr"
      let _ ← match r.strand with
        | .absent => Except.error "KeyError: strand"
        | .scalar s =>
          if s.isEmpty then
            Except.error "IndexError: string index out of range"
          else Except.ok ""
        | .perRow l => expectOr (l.get? 0) "IndexError: strand"
      let _ ← expectOr (r.start.get? 0) "IndexError: start"
      let _ ← expectOr (r.end_.get? 0) "IndexError: end"
      Except.error "TypeError: unhashable type: list"

/-- Entry of the batch metadata dictionary: a GenomicRanges dictionary for a
metadata field, or the identifier array stored under keys such as `id`. -/
inductive MetaEntry where
  | ranges (r : Ranges)
  | ids (l : List String)
  deriving DecidableEq, Repr

/-- Batch metadata, `dl_batch['metadata']`, as an association list in
insertion order. -/
abbrev MetadataDict := List (String × MetaEntry)

/-- Read a GenomicRanges entry of the metadata dictionary; a missing key is a
Python KeyError. -/
def lookupRanges (md : MetadataDict) (k : String) : Except String Ranges :=
  match md.lookup k with
  | some (.ranges r) => Except.ok r
  | some (.ids _) => Except.error "TypeError: GenomicRanges metadata expected"
  | none => Except.error "KeyError: metadata field"

/-- Keys of `seq_to_meta` mapping to metadata field `v`, the entry of the
`meta_to_seq` dictionary built by the search strategy. -/
def meta_to_seq_of (seq_to_meta : List (String × String)) (v : String) :
    List String :=
  (seq_to_meta.filter (fun kv => decide (kv.2 = v))).map (fun kv => kv.1)

/-- The `list(set(seq_to_meta.values()))` of both strategies; the Python set
order is arbitrary, modelled as first-appearance order. -/
def all_meta_fields_of (seq_to_meta : List (String × String)) : List String :=
  dedupKeepFirst (seq_to_meta.map (fun kv => kv.2))

/-- Loop of the search strategy collecting the one-row region of every
metadata field for the current sample row. -/
def collectRegionsByMeta (metadata : MetadataDict) (line_id : Nat) :
    List String → Except String (List (String × Ranges))
  | [] => Except.ok []
  | f :: rest => do
    let r ← lookupRanges metadata f
    let rs ← collectRegionsByMeta metadata line_id rest
    Except.ok ((f, get_genomicranges_line r line_id) :: rs)

/-- Affected-field lists of the search strategy: for every matched merged
region index, concatenate `meta_to_seq[f]` over the provenance fields `f` of
that merged region. -/
def metasOfSubs (seq_to_meta : List (String × String))
    (meta_field_unif_r : List (List String)) :
    List Nat → Except String (List (List String))
  | [] => Except.ok []
  | sub :: rest => do
    let mfs ← expectOr (meta_field_unif_r.get? sub) "IndexError: merged region"
    let ms ← metasOfSubs seq_to_meta meta_field_unif_r rest
    Except.ok (((mfs.map (meta_to_seq_of seq_to_meta)).flatten) :: ms)

/-- Body of the search strategy for one sample row: merge the per-field
regions (or take the single field's row directly), overlap them with the
variant source, and pair every hit with its affected-field list. -/
def searchLine (metadata : MetadataDict) (seq_to_meta : List (String × String))
    (vcf_fh : VcfHandle) (all_meta_fields : List String) (line_id : Nat) :
    Except String (List VariantRecord × List (List String)) := do
  let pair ←
    if all_meta_fields.length > 1 then do
      let regions_by_meta ← collectRegionsByMeta metadata line_id all_meta_fields
      merge_intervals regions_by_meta
    else do
      let f0 ← expectOr all_meta_fields.head? "IndexError: all_meta_fields"
      let r ← lookupRanges metadata f0
      Except.ok (get_genomicranges_line r line_id, [all_meta_fields])
  let (vcf_records_here, process_lines_rel) ←
    _overlap_vcf_region vcf_fh pair.1 true
  let metas ← metasOfSubs seq_to_meta pair.2 process_lines_rel
  Except.ok (vcf_records_here, metas)

/-- Outer loop of the search strategy over the sample rows of the batch. -/
def searchGo (metadata : MetadataDict) (seq_to_meta : List (String × String))
    (vcf_fh : VcfHandle) (all_meta_fields : List String) :
    List Nat → Except String (List VariantRecord × List Nat × List (List String))
  | [] => Except.ok ([], [], [])
  | line_id :: rest => do
    let (recs, metas) ← searchLine metadata seq_to_meta vcf_fh all_meta_fields line_id
    let (recs2, lines2, metas2) ← searchGo metadata seq_to_meta vcf_fh all_meta_fields rest
    Except.ok (recs ++ recs2, List.replicate recs.length line_id ++ lines2, metas ++ metas2)

/-- Embedding of `get_variants_in_regions_search_vcf(dl_batch, seq_to_meta,
vcf_fh)`; only the metadata member of the batch is read.  Returns
`(vcf_records, process_lines, process_seq_fields)`. -/
def get_variants_in_regions_search_vcf (metadata : MetadataDict)
    (seq_to_meta : List (String × String)) (vcf_fh : VcfHandle) :
    Except String (List VariantRecord × List Nat × List (List String)) := do
  let all_meta_fields := all_meta_fields_of seq_to_meta
  let f0 ← expectOr all_meta_fields.head? "IndexError: all_meta_fields"
  let r0 ← lookupRanges metadata f0
  let num_samples_in_batch := r0.chr.length
  searchGo metadata seq_to_meta vcf_fh all_meta_fields
    (List.range num_samples_in_batch)

/-- Inner `for record in vcf_fh` loop of the sequential strategy: consume the
stream until a record whose generated identifier equals `returned_id` is
found; skipped records are consumed (and warned about) and never revisited. -/
def findAndConsume (gen : VariantRecord → String) (returned_id : String) :
    List VariantRecord → Option (VariantRecord × List VariantRecord)
  | [] => none
  | record :: rest =>
    if gen record = returned_id then some (record, rest)
    else findAndConsume gen returned_id rest

/-- Outer loop of the sequential strategy over the region identifiers; an
identifier with no matching record consumes the rest of the stream and
contributes nothing. -/
def sequentialGo (gen : VariantRecord → String) :
    List String → Nat → List VariantRecord →
    List VariantRecord × List String × List Nat
  | [], _, _ => ([], [], [])
  | rid :: rest, i, stream =>
    match findAndConsume gen rid stream with
    | some (record, stream2) =>
      let (recs, pids, lines) := sequentialGo gen rest (i + 1) stream2
      (record :: recs, rid :: pids, i :: lines)
    | none => sequentialGo gen rest (i + 1) []

/-- Cross-field identifier agreement assert of the sequential strategy:
`np.all(ranges["id"] == rng["id"])` for every metadata field after the
first. -/
def checkIdsAgree (metadata : MetadataDict) (ranges : Ranges) :
    List String → Except String Unit
  | [] => Except.ok ()
  | f :: rest => do
    let rng ← lookupRanges metadata f
    let ids0 ← expectOr ranges.id "KeyError: id"
    let idsF ← expectOr rng.id "KeyError: id"
    if ids0 = idsF then checkIdsAgree metadata ranges rest
    else Except.error "AssertionError: metadata range ids disagree"

/-- Embedding of `get_variants_in_regions_sequential_vcf(dl_batch,
seq_to_meta, vcf_fh, vcf_id_generator_fn)`; only the metadata member of the
batch is read.  Returns `(vcf_records, process_lines, process_seq_fields,
process_ids)`. -/
def get_variants_in_regions_sequential_vcf (metadata : MetadataDict)
    (seq_to_meta : List (String × String)) (vcf_fh : VcfHandle)
    (vcf_id_generator_fn : VariantRecord → String) :
    Except String
      (List VariantRecord × List Nat × List (List String) × List String) := do
  let all_mut_seq_fields := dedupKeepFirst (seq_to_meta.map (fun kv => kv.1))
  let all_meta_fields := all_meta_fields_of seq_to_meta
  let f0 ← expectOr all_meta_fields.head?
    "TypeError: NoneType is not subscriptable"
  let ranges ← lookupRanges metadata f0
  let _ ← checkIdsAgree metadata ranges all_meta_fields.tail
  let ids ← expectOr ranges.id "KeyError: id"
  let (vcf_records, process_ids, process_lines) :=
    sequentialGo vcf_id_generator_fn ids 0 vcf_fh.records
  Except.ok (vcf_records, process_lines,
    process_lines.map (fun _ => all_mut_seq_fields), process_ids)

/-- Model-input container of a dataloader batch, in the three shapes the
generator supports: a named mapping of fields, an ordered sequence of fields
(names live in the schema), or a single unnamed field.  A field holds one
entry per sample row. -/
inductive Inputs (ρ : Type) where
  | dict (fields : List (String × List ρ))
  | ordered (fields : List (List ρ))
  | single (rows : List ρ)
  deriving DecidableEq, Repr

/-- Shape declaration of `dl_ouput_schema.inputs` communicated by the
dataloader schema; an ordered schema carries the per-position field names. -/
inductive SchemaInputs where
  | dict
  | ordered (names : List String)
  | single
  deriving DecidableEq, Repr

/-- Dataloader batch: model inputs plus the metadata dictionary. -/
structure DLBatch (ρ : Type) where
  inputs : Inputs ρ
  metadata : MetadataDict

/-- External per-field mutation callable (spec section 6), modelled row-wise:
arguments are the sequence-field name, one input row, the localisation row of
the assignment at the same position, the allele (`ref` or `alt`) and the
direction (`fwd` or `rc`). -/
abbrev MutFn (ρ : Type) := String → ρ → PreprocRow → String → String → ρ

/-- Apply the row-wise mutation callable to one field: row `i` of the field is
mutated with localisation row `i`. -/
def mutateRows {ρ : Type} (mutf : MutFn ρ) (seq_key : String) (rows : List ρ)
    (vl : List PreprocRow) (allele s_dir : String) : List ρ :=
  (rows.zip vl).map (fun rv => mutf seq_key rv.1 rv.2 allele s_dir)

/-- Mutation dispatch of `_generate_seq_sets` over the three container
shapes: a named mapping raises when `seq_key` is absent; an ordered sequence
mutates the positions whose schema name matches and silently keeps the rest;
a single unnamed field is always mutated.  A schema/container shape mismatch
is the TypeError Python would raise when subscripting. -/
def applyMut {ρ : Type} (mutf : MutFn ρ) (schema : SchemaInputs)
    (container : Inputs ρ) (seq_key : String) (vl : List PreprocRow)
    (allele s_dir : String) : Except String (Inputs ρ) :=
  match schema, container with
  | .dict, .dict fields =>
    if (fields.lookup seq_key).isSome then
      Except.ok (.dict (fields.map (fun nr =>
        if nr.1 = seq_key then (nr.1, mutateRows mutf seq_key nr.2 vl allele s_dir)
        else nr)))
    else
      Except.error ("Exception: Sequence field " ++ seq_key ++
        " is missing in DataLoader output!")
  | .ordered names, .ordered fs =>
    Except.ok (.ordered ((fs.zip names).map (fun rn =>
      if rn.2 = seq_key then mutateRows mutf seq_key rn.1 vl allele s_dir
      else rn.1)))
  | .single, .single rows =>
    Except.ok (.single (mutateRows mutf seq_key rows vl allele s_dir))
  | _, _ => Except.error "TypeError: schema and container shapes disagree"

/-- Lift `applyMut` to the optional reverse-complement containers. -/
def applyMutOpt {ρ : Type} (mutf : MutFn ρ) (schema : SchemaInputs)
    (container : Option (Inputs ρ)) (seq_key : String) (vl : List PreprocRow)
    (allele s_dir : String) : Except String (Option (Inputs ρ)) :=
  match container with
  | none => Except.ok none
  | some c => do
    let c2 ← applyMut mutf schema c seq_key vl allele s_dir
    Except.ok (some c2)

/-- The `input_set` of `_generate_seq_sets`: one (possibly subset) copy of the
batch inputs per direction/allele combination; the reverse-complement copies
exist only when `generate_rc`. -/
structure ComboSet (ρ : Type) where
  fwd_ref : Inputs ρ
  fwd_alt : Inputs ρ
  rc_ref : Option (Inputs ρ)
  rc_alt : Option (Inputs ρ)

/-- Modelled from the spec: `select_from_dl_batch` lives in
`kipoi_veff.utils` (not under the sources given here); per spec section 4.6
step 3 it subsets/reorders every input field down to exactly the sample rows
with assignments, preserving the order of `process_lines`.  Row indices are
in range for every caller; the `default` row of an out-of-range index is
never produced. -/
def select_from_dl_batch {ρ : Type} [Inhabited ρ] (inputs : Inputs ρ)
    (process_lines : List Nat) : Inputs ρ :=
  match inputs with
  | .dict fields =>
    .dict (fields.map (fun nr => (nr.1, process_lines.map (fun l => nr.2.getD l default))))
  | .ordered fields =>
    .ordered (fields.map (fun rows => process_lines.map (fun l => rows.getD l default)))
  | .single rows => .single (process_lines.map (fun l => rows.getD l default))

/-- Variant localisation table of one sequence field inside
`_generate_seq_sets`: resolve the governing metadata field of `seq_key`
(Python `seq_to_meta[seq_key]`, a KeyError when absent), read its
GenomicRanges entry, and localise every assignment (the source builds the
table through `VariantLocalisation.append_multi`, which receives exactly the
arguments of the in-source `get_variants_df` kept alongside it as the
commented-out equivalent). -/
def vlFor (metadata : MetadataDict) (seq_to_meta : List (String × String))
    (vcf_records : List VariantRecord) (process_lines : List Nat)
    (process_ids : List String) (process_seq_fields : List (List String))
    (seq_key : String) : Except String (List PreprocRow) := do
  let mf ← expectOr (seq_to_meta.lookup seq_key) "KeyError: seq_to_meta"
  let ranges_input_obj ← lookupRanges metadata mf
  get_variants_df seq_key ranges_input_obj vcf_records process_lines
    process_ids process_seq_fields

/-- Per-`seq_key` body of the mutation loop of `_generate_seq_sets`: build
the localisation table of the field and mutate every direction/allele copy
with it. -/
def mutateKey {ρ : Type} (mutf : MutFn ρ) (schema : SchemaInputs)
    (metadata : MetadataDict) (seq_to_meta : List (String × String))
    (vcf_records : List VariantRecord) (process_lines : List Nat)
    (process_ids : List String) (process_seq_fields : List (List String))
    (cs : ComboSet ρ) (seq_key : String) : Except String (ComboSet ρ) := do
  let vl ← vlFor metadata seq_to_meta vcf_records process_lines process_ids
    process_seq_fields seq_key
  let fr ← applyMut mutf schema cs.fwd_ref seq_key vl "ref" "fwd"
  let fa ← applyMut mutf schema cs.fwd_alt seq_key vl "alt" "fwd"
  let rr ← applyMutOpt mutf schema cs.rc_ref seq_key vl "ref" "rc"
  let ra ← applyMutOpt mutf schema cs.rc_alt seq_key vl "alt" "rc"
  Except.ok { fwd_ref := fr, fwd_alt := fa, rc_ref := rr, rc_alt := ra }

/-- Mutation loop of `_generate_seq_sets` over `all_mut_seq_keys`. -/
def mutateAllKeys {ρ : Type} (mutf : MutFn ρ) (schema : SchemaInputs)
    (metadata : MetadataDict) (seq_to_meta : List (String × String))
    (vcf_records : List VariantRecord) (process_lines : List Nat)
    (process_ids : List String) (process_seq_fields : List (List String)) :
    List String → ComboSet ρ → Except String (ComboSet ρ)
  | [], cs => Except.ok cs
  | seq_key :: rest, cs => do
    let cs2 ← mutateKey mutf schema metadata seq_to_meta vcf_records
      process_lines process_ids process_seq_fields cs seq_key
    mutateAllKeys mutf schema metadata seq_to_meta vcf_records process_lines
      process_ids process_seq_fields rest cs2

/-- The monotonic sample-id allocator. -/
structure SampleCounter where
  sample_it_counter : Nat
  deriving DecidableEq, Repr

/-- Embedding of `SampleCounter.get_ids(number)`: the next `number` counter
values as strings, advancing the counter. -/
def SampleCounter.get_ids (c : SampleCounter) (number : Nat) :
    List String × SampleCounter :=
  ((List.range' c.sample_it_counter number).map (fun i => toString i),
    ⟨c.sample_it_counter + number⟩)

/-- Identifier selection of `_generate_seq_sets` (source lines 365-369): the
allocator is consulted first, unconditionally advancing it; when the key
`_id` is present in the metadata the identifiers are then read from the key
`id` (a KeyError when absent) and their number is asserted to match the batch
size. -/
def chooseMetadataIds (metadata : MetadataDict) (sample_counter : SampleCounter)
    (num_samples_in_batch : Nat) : Except String (List String × SampleCounter) :=
  let alloc := sample_counter.get_ids num_samples_in_batch
  if (metadata.lookup "_id").isSome then
    match metadata.lookup "id" with
    | some (.ids l) =>
      if num_samples_in_batch = l.length then Except.ok (l, alloc.2)
      else Except.error "AssertionError: number of native ids"
    | some (.ranges _) => Except.error "TypeError: identifier list expected"
    | none => Except.error "KeyError: id"
  else
    Except.ok (alloc.1, alloc.2)

/-- The `pred_set` dictionary returned by `_generate_seq_sets`. -/
structure PredSet (ρ : Type) where
  ref : Inputs ρ
  alt : Inputs ρ
  ref_rc : Option (Inputs ρ)
  alt_rc : Option (Inputs ρ)
  line_id : List String
  vcf_records : List VariantRecord

/-- Identifier lookup loop `process_ids.append(metadata_ids[line_id])` of
`_generate_seq_sets` for the search path. -/
def buildProcessIds (metadata_ids : List String) :
    List Nat → Except String (List String)
  | [] => Except.ok []
  | l :: rest => do
    let v ← expectOr (metadata_ids.get? l) "IndexError: metadata_ids"
    let vs ← buildProcessIds metadata_ids rest
    Except.ok (v :: vs)

/-- Embedding of `_generate_seq_sets(dl_ouput_schema, dl_batch, vcf_fh,
vcf_id_generator_fn, seq_to_mut, seq_to_meta, sample_counter,
vcf_search_regions, generate_rc)`.  The mutation callables `seq_to_mut` are
modelled by the single row-wise callable `seq_to_mut` receiving the field
name.  Returns the optional `pred_set` (the `None` sentinel when no
assignment exists) and the advanced allocator. -/
def _generate_seq_sets {ρ : Type} [Inhabited ρ] (dl_ouput_schema : SchemaInputs)
    (dl_batch : DLBatch ρ) (vcf_fh : VcfHandle)
    (vcf_id_generator_fn : VariantRecord → String) (seq_to_mut : MutFn ρ)
    (seq_to_meta : List (String × String)) (sample_counter : SampleCounter)
    (vcf_search_regions : Bool) (generate_rc : Bool) :
    Except String (Option (PredSet ρ) × SampleCounter) := do
  let all_meta_fields := all_meta_fields_of seq_to_meta
  let f0 ← expectOr all_meta_fields.head? "IndexError: all_meta_fields"
  let r0 ← lookupRanges dl_batch.metadata f0
  let num_samples_in_batch := r0.chr.length
  let (metadata_ids, sample_counter2) ←
    chooseMetadataIds dl_batch.metadata sample_counter num_samples_in_batch
  let (vcf_records, process_lines, process_seq_fields, process_ids?) ←
    if vcf_search_regions then do
      let rlf ← get_variants_in_regions_search_vcf dl_batch.metadata
        seq_to_meta vcf_fh
      pure (rlf.1, rlf.2.1, rlf.2.2, (none : Option (List String)))
    else do
      let rlfp ← get_variants_in_regions_sequential_vcf dl_batch.metadata
        seq_to_meta vcf_fh vcf_id_generator_fn
      pure (rlfp.1, rlfp.2.1, rlfp.2.2.1, some rlfp.2.2.2)
  if process_lines.isEmpty then
    Except.ok (none, sample_counter2)
  else do
    let process_ids ← match process_ids? with
      | some pids => pure pids
      | none => buildProcessIds metadata_ids process_lines
    let all_lines := List.range num_samples_in_batch
    let ds := if process_lines ≠ all_lines then
        select_from_dl_batch dl_batch.inputs process_lines
      else dl_batch.inputs
    let cs0 : ComboSet ρ :=
      { fwd_ref := ds, fwd_alt := ds,
        rc_ref := if generate_rc then some ds else none,
        rc_alt := if generate_rc then some ds else none }
    let all_mut_seq_keys := dedupKeepFirst process_seq_fields.flatten
    let cs ← mutateAllKeys seq_to_mut dl_ouput_schema dl_batch.metadata
      seq_to_meta vcf_records process_lines process_ids process_seq_fields
      all_mut_seq_keys cs0
    Except.ok (some
      { ref := cs.fwd_ref, alt := cs.fwd_alt, ref_rc := cs.rc_ref,
        alt_rc := cs.rc_alt, line_id := process_ids,
        vcf_records := vcf_records }, sample_counter2)

/-- Single-field fold view of the mutation loop: the mutation of one
direction/allele copy across the sequence keys, used to state per-container
consequences of `mutateAllKeys`. -/
def applyMutKeys {ρ : Type} (mutf : MutFn ρ) (schema : SchemaInputs)
    (metadata : MetadataDict) (seq_to_meta : List (String × String))
    (vcf_records : List VariantRecord) (process_lines : List Nat)
    (process_ids : List String) (process_seq_fields : List (List String))
    (allele s_dir : String) : List String → Inputs ρ → Except String (Inputs ρ)
  | [], c => Except.ok c
  | seq_key :: rest, c => do
    let vl ← vlFor metadata seq_to_meta vcf_records process_lines process_ids
      process_seq_fields seq_key
    let c2 ← applyMut mutf schema c seq_key vl allele s_dir
    applyMutKeys mutf schema metadata seq_to_meta vcf_records process_lines
      process_ids process_seq_fields allele s_dir rest c2

/-- Single-row GenomicRanges dictionary, the shape every field of a
`merge_intervals` argument must have. -/
def mkRanges1 (c : String) (s e : Int) : Ranges :=
  { chr := [c], start := [s], end_ := [e], strand := .absent, id := none }

/-- Present every row of a merged output as its own single-row field, under
fresh field names, to feed the merge a second time. -/
def representMerged (out : Ranges) (names2 : List String) :
    List (String × Ranges) :=
  (names2.zip (out.chr.zip (out.start.zip out.end_))).map
    (fun p => (p.1, mkRanges1 p.2.1 p.2.2.1 p.2.2.2))

/-- In-bounds check for the per-row strand read of `get_variants_df`. -/
def strandOkB (sf : StrandField) (l : Nat) : Bool :=
  match sf with
  | .perRow s => decide (l < s.length)
  | _ => true

instance : Inhabited VariantRecord :=
  ⟨{ chrom := "", POS := 0, REF := "", ALT0 := "", rid := "" }⟩

instance : Inhabited PreprocRow :=
  ⟨{ pp_line := 0, varpos_rel := none, ref := none, alt := none,
     start := none, end_ := none, id := "", do_mutate := false, strand := none }⟩

/-- The localisation tables of the mutation loop of `_generate_seq_sets`,
one per sequence key: exactly the `vlFor` table every `mutateKey` iteration
computes (the table depends on the key only, not on the allele or the
direction). -/
def vlTabs (metadata : MetadataDict) (seq_to_meta : List (String × String))
    (vcf_records : List VariantRecord) (process_lines : List Nat)
    (process_ids : List String) (process_seq_fields : List (List String)) :
    List String → Except String (List (String × List PreprocRow))
  | [] => Except.ok []
  | k :: rest => do
    let t ← vlFor metadata seq_to_meta vcf_records process_lines process_ids
      process_seq_fields k
    let ts ← vlTabs metadata seq_to_meta vcf_records process_lines process_ids
      process_seq_fields rest
    Except.ok ((k, t) :: ts)

/-- Row-`i` view of the mutation loop: the per-key mutators folded over one
input row, each key reading row `i` of its localisation table. -/
def rowFold {ρ : Type} (mutf : MutFn ρ) (allele s_dir : String)
    (tabs : List (String × List PreprocRow)) (i : Nat) (r : ρ) : ρ :=
  tabs.foldl (fun r2 kt => mutf kt.1 r2 (kt.2.getD i default) allele s_dir) r

/-- Container view of the mutation loop on the single unnamed field: the
per-key `mutateRows` passes folded over the whole row list. -/
def foldMutate {ρ : Type} (mutf : MutFn ρ) (allele s_dir : String)
    (tabs : List (String × List PreprocRow)) (rows : List ρ) : List ρ :=
  tabs.foldl (fun rs kt => mutateRows mutf kt.1 rs kt.2 allele s_dir) rows

/-- Shape-uniform view of a batch-input container under its schema: every
field together with its effective mutation name — the mapping name for the
named-mapping shape, the positional schema name for the ordered shape, and
no name (mutated by every key) for the single unnamed shape.  A
schema/container shape mismatch exposes no fields. -/
def namedFields {ρ : Type} (schema : SchemaInputs) (inp : Inputs ρ) :
    List (Option String × List ρ) :=
  match schema, inp with
  | .dict, .dict fields => fields.map (fun nr => (some nr.1, nr.2))
  | .ordered names, .ordered fs =>
    (fs.zip names).map (fun rn => (some rn.2, rn.1))
  | .single, .single rows => [(none, rows)]
  | _, _ => []

/-- Whether the mutation pass of key `k` touches a field of effective name
`n`: the single unnamed field is touched by every key, a named field only by
its own key. -/
def nfMatch (k : String) : Option String → Bool
  | none => true
  | some s => decide (s = k)

/-- The localisation tables that apply to a field of effective name `n`. -/
def tabsFor (n : Option String) (tabs : List (String × List PreprocRow)) :
    List (String × List PreprocRow) :=
  match n with
  | none => tabs
  | some s => tabs.filter (fun kt => kt.1 = s)

/-- Positional consistency of one returned direction/allele copy `cnt`
against the original batch inputs: the copy exposes the same fields under
the same effective names, every field has one row per assignment, and row
`i` of field `j` is the original field's row for sample `lines[i]`,
transformed by exactly the keys that apply to the field, each reading row
`i` of its own localisation table. -/
def posConsistent {ρ : Type} [Inhabited ρ] (mutf : MutFn ρ)
    (allele s_dir : String) (schema : SchemaInputs)
    (tabs : List (String × List PreprocRow)) (lines : List Nat)
    (inputs cnt : Inputs ρ) : Prop :=
  (namedFields schema cnt).length = (namedFields schema inputs).length ∧
  ∀ j (n : Option String) (rows : List ρ),
    (namedFields schema inputs).get? j = some (n, rows) →
    ∃ rows2, (namedFields schema cnt).get? j = some (n, rows2) ∧
      rows2.length = lines.length ∧
      ∀ i, i < lines.length → rows2.getD i default =
        rowFold mutf allele s_dir (tabsFor n tabs) i
          (rows.getD (lines.getD i 0) default)

/-!
Theorems.  Claim-level theorems carry the claim id in their doc comment;
supporting lemmas precede them.
-/

/-- C1: evaluation of variant localisation at the failing boundary input.
For the region with 0-based half-open bounds `[100, 110)` and a variant at
1-based position `111 = end + 1` — outside `start < p <= end` — the code
reports `relative_offset = p - start - 1 = 10` as the claim states, but sets
`do_mutate = true`, where the claim requires `do_mutate = false`: the bound
check of `get_variants_df` accepts `varpos_rel` up to `end - start`, one
position past the region. -/
theorem C1_boundary_eval :
    get_variants_df "seq1" ⟨["chr1"], [100], [110], .absent, none⟩
      [⟨"chr1", 111, "A", "G", "v1"⟩] [0] ["v1"] [["seq1"]] =
    Except.ok [⟨0, some 10, some "A", some "G", some 101, some 110, "v1",
      true, some "*"⟩] := rfl

/-- C4 counterexample: when the query matches no source name directly and no
stripped source name either, `homogenise_seqname` returns Python `None`
(modelled `Except.ok none`), not the original query name `"5"`. -/
theorem C4_counterexample :
    homogenise_seqname "5" ["1", "2"] = Except.ok none ∧
    homogenise_seqname "5" ["1", "2"] ≠ Except.ok (some "5") :=
  ⟨rfl, fun h => Option.noConfusion (Except.ok.inj ((rfl :
    (Except.ok none : Except String (Option String)) =
      homogenise_seqname "5" ["1", "2"]).trans h))⟩

/-- C4 amended: if the query matches no source name directly, the stripped
query matches no stripped source name, and stripping collapses no source
names, then `homogenise_seqname` falls off the end of the function and
returns `None` — the caller's subsequent region query is formatted with the
literal string `None` and matches nothing. -/
theorem C4_no_match_returns_none (q : String) (possible : List String)
    (h1 : q ∉ possible)
    (h2 : strip_chr q ∉ possible.map strip_chr)
    (h3 : (possible.map strip_chr).dedup.length = possible.dedup.length) :
    homogenise_seqname q possible = Except.ok none := by
  simp [homogenise_seqname, h1, h2, h3]

/-- C4 witness: the amended theorem applied at the concrete no-match input. -/
theorem C4_witness : homogenise_seqname "5" ["1", "2"] = Except.ok none :=
  C4_no_match_returns_none "5" ["1", "2"] (by decide) (by decide) (by decide)

/-- C3 counterexample: the sequential identifier-matching strategy performs no
indel check: a record with `REF = "A"`, `ALT[0] = "AT"` (an indel) whose
generated identifier matches the region identifier `v1` is returned in the
assignment triple, and `get_variants_df` applied to that assignment fires its
`assert not is_indel_wrapper(record)`. -/
theorem C3_counterexample :
    get_variants_in_regions_sequential_vcf
      [("m1", .ranges ⟨["chr1"], [0], [10], .absent, some ["v1"]⟩)]
      [("seq1", "m1")] ⟨["chr1"], [⟨"chr1", 5, "A", "AT", "v1"⟩]⟩
      (fun r => r.rid) =
      Except.ok ([⟨"chr1", 5, "A", "AT", "v1"⟩], [0], [["seq1"]], ["v1"]) ∧
    is_indel_wrapper ⟨"chr1", 5, "A", "AT", "v1"⟩ = true ∧
    get_variants_df "seq1" ⟨["chr1"], [0], [10], .absent, some ["v1"]⟩
      [⟨"chr1", 5, "A", "AT", "v1"⟩] [0] ["v1"] [["seq1"]] =
      Except.error "AssertionError: indel record in get_variants_df" :=
  ⟨rfl, rfl, rfl⟩

/-- C6 counterexample: two single-row regions on the same chromosome that
merely touch (`[0, 5)` and `[5, 10)`) are NOT merged by `merge_intervals` —
the output has two rows, each carrying only its own field's provenance —
and the strand-aware variant raises on the same touching input: a KeyError
when the regions carry no `strand` key (the `["strand"][0]` read precedes
the membership test) and the unhashable-list TypeError when they do. -/
theorem C6_counterexample :
    merge_intervals [("a", mkRanges1 "chr1" 0 5), ("b", mkRanges1 "chr1" 5 10)] =
      Except.ok (⟨["chr1", "chr1"], [0, 5], [5, 10], .perRow ["*", "*"], none⟩,
        [["a"], ["b"]]) ∧
    merge_intervals_strandaware
      [("a", mkRanges1 "chr1" 0 5), ("b", mkRanges1 "chr1" 5 10)] =
      Except.error "KeyError: strand" ∧
    merge_intervals_strandaware
      [("a", ⟨["chr1"], [0], [5], .perRow ["+"], none⟩),
       ("b", ⟨["chr1"], [5], [10], .perRow ["+"], none⟩)] =
      Except.error "TypeError: unhashable type: list" :=
  ⟨rfl, rfl, rfl⟩

/-- C5 counterexample: a batch whose metadata carries the native identifier
keys `_id` and `id` uses the native identifiers (`line_id = ["s1"]`), yet the
allocator is still advanced: starting from counter 0 with a batch of two
samples, the counter after the batch is 2, not 0 — `get_ids` is called
unconditionally before the `_id` check. -/
theorem C5_counterexample :
    _generate_seq_sets SchemaInputs.dict
      { inputs := Inputs.dict [("seq1", ["r0", "r1"])],
        metadata := [("m1", .ranges ⟨["chr1", "chr1"], [0, 50], [10, 60], .absent, none⟩),
          ("_id", .ids ["x", "y"]), ("id", .ids ["s0", "s1"])] }
      ⟨["chr1"], [⟨"chr1", 55, "A", "G", "v1"⟩]⟩ (fun r => r.rid)
      (fun _ r _ a _ => r ++ a) [("seq1", "m1")] ⟨0⟩ true false =
    Except.ok (some ⟨Inputs.dict [("seq1", ["r1ref"])],
      Inputs.dict [("seq1", ["r1alt"])], none, none, ["s1"],
      [⟨"chr1", 55, "A", "G", "v1"⟩]⟩, ⟨2⟩) := rfl

/-- C8 counterexample: with the ordered-sequence input shape, an assignment
referencing the sequence field `seq1` while the schema names only `other`
does NOT raise: the run succeeds and both returned copies hold the original,
unmutated subset row `r1`. -/
theorem C8_counterexample :
    _generate_seq_sets (SchemaInputs.ordered ["other"])
      { inputs := Inputs.ordered [["r0", "r1"]],
        metadata := [("m1", .ranges ⟨["chr1", "chr1"], [0, 50], [10, 60], .absent, none⟩)] }
      ⟨["chr1"], [⟨"chr1", 55, "A", "G", "v1"⟩]⟩ (fun r => r.rid)
      (fun _ r _ a _ => r ++ a) [("seq1", "m1")] ⟨0⟩ true false =
    Except.ok (some ⟨Inputs.ordered [["r1"]], Inputs.ordered [["r1"]],
      none, none, ["1"], [⟨"chr1", 55, "A", "G", "v1"⟩]⟩, ⟨2⟩) := rfl

/-- C10: the native-identifier presence test of `_generate_seq_sets` uses the
key `_id` while the identifiers are read from the key `id`.  (1) When the
metadata contains `_id` but not `id`, the generator fails with the KeyError of
the `id` lookup instead of falling back to allocator identifiers.  (2) When
both keys are present (with the asserted length), the native identifiers under
`id` are selected.  (3) The allocator identifiers are used only when `_id` is
absent. -/
theorem C10_presence_test_uses_underscore_id {ρ : Type} [Inhabited ρ]
    (schema : SchemaInputs) (batch : DLBatch ρ) (vcf : VcfHandle)
    (gen : VariantRecord → String) (mutf : MutFn ρ)
    (seq_to_meta : List (String × String)) (c : SampleCounter)
    (search rc : Bool) (f0 : String) (r0 : Ranges)
    (hf0 : (all_meta_fields_of seq_to_meta).head? = some f0)
    (hr0 : lookupRanges batch.metadata f0 = Except.ok r0) :
    ((batch.metadata.lookup "_id").isSome →
      batch.metadata.lookup "id" = none →
      _generate_seq_sets schema batch vcf gen mutf seq_to_meta c search rc =
        Except.error "KeyError: id") ∧
    (∀ l : List String, (batch.metadata.lookup "_id").isSome →
      batch.metadata.lookup "id" = some (.ids l) →
      r0.chr.length = l.length →
      chooseMetadataIds batch.metadata c r0.chr.length =
        Except.ok (l, ⟨c.sample_it_counter + r0.chr.length⟩)) ∧
    (batch.metadata.lookup "_id" = none →
      chooseMetadataIds batch.metadata c r0.chr.length =
        Except.ok ((c.get_ids r0.chr.length).1,
          ⟨c.sample_it_counter + r0.chr.length⟩)) := by
  refine ⟨?_, ?_, ?_⟩
  · intro hud hid
    have hchoose : chooseMetadataIds batch.metadata c r0.chr.length =
        Except.error "KeyError: id" := by
      simp [chooseMetadataIds, hud, hid]
    simp [_generate_seq_sets, hf0, hr0, hchoose, expectOr,
      Bind.bind, Except.bind]
  · intro l hud hid hlen
    simp [chooseMetadataIds, hud, hid, hlen, SampleCounter.get_ids]
  · intro hud
    simp [chooseMetadataIds, hud, SampleCounter.get_ids]

/-- C10 witness: the theorem applied to a concrete batch carrying `_id` but
no `id` key. -/
theorem C10_witness :
    _generate_seq_sets SchemaInputs.single
      ({ inputs := .single ["x"],
         metadata := [("m1", .ranges (mkRanges1 "chr1" 0 5)), ("_id", .ids ["a"])] } :
        DLBatch String)
      ⟨[], []⟩ (fun r => r.rid) (fun _ r _ _ _ => r) [("seq1", "m1")] ⟨0⟩
      true true = Except.error "KeyError: id" :=
  (C10_presence_test_uses_underscore_id SchemaInputs.single
    ({ inputs := .single ["x"],
       metadata := [("m1", .ranges (mkRanges1 "chr1" 0 5)), ("_id", .ids ["a"])] } :
      DLBatch String)
    ⟨[], []⟩ (fun r => r.rid) (fun _ r _ _ _ => r) [("seq1", "m1")] ⟨0⟩
    true true "m1" (mkRanges1 "chr1" 0 5) rfl rfl).1 (by decide) rfl

theorem generate_seq_sets_counter {ρ : Type} [Inhabited ρ]
    (schema : SchemaInputs) (batch : DLBatch ρ) (vcf : VcfHandle)
    (gen : VariantRecord → String) (mutf : MutFn ρ)
    (seq_to_meta : List (String × String)) (c : SampleCounter)
    (search rc : Bool) (f0 : String) (r0 : Ranges) (ids : List String)
    (c2 : SampleCounter)
    (hf0 : (all_meta_fields_of seq_to_meta).head? = some f0)
    (hr0 : lookupRanges batch.metadata f0 = Except.ok r0)
    (hchoose : chooseMetadataIds batch.metadata c r0.chr.length =
      Except.ok (ids, c2)) :
    ∀ res cOut, _generate_seq_sets schema batch vcf gen mutf seq_to_meta c
      search rc = Except.ok (res, cOut) → cOut = c2 := by
  intro res cOut h
  simp only [_generate_seq_sets, hf0, expectOr, hr0, hchoose, Bind.bind,
    Except.bind] at h
  cases search with
  | true =>
    cases hS : get_variants_in_regions_search_vcf batch.metadata seq_to_meta vcf with
    | error e =>
      rw [hS] at h
      simp only [if_true, Bind.bind, Except.bind] at h
      exact Except.noConfusion h
    | ok rlf =>
      rw [hS] at h
      simp only [if_true, Bind.bind, Except.bind, pure, Except.pure] at h
      split at h
      · simp only [Except.ok.injEq, Prod.mk.injEq] at h
        exact h.2.symm
      · split at h
        · exact Except.noConfusion h
        · split at h
          · exact Except.noConfusion h
          · simp only [Except.ok.injEq, Prod.mk.injEq] at h
            exact h.2.symm
  | false =>
    cases hS : get_variants_in_regions_sequential_vcf batch.metadata
        seq_to_meta vcf gen with
    | error e =>
      rw [hS] at h
      simp only [Bool.false_eq_true, if_false, Bind.bind, Except.bind] at h
      exact Except.noConfusion h
    | ok rlfp =>
      rw [hS] at h
      simp only [Bool.false_eq_true, if_false, Bind.bind, Except.bind, pure,
        Except.pure] at h
      split at h
      · simp only [Except.ok.injEq, Prod.mk.injEq] at h
        exact h.2.symm
      · split at h
        · exact Except.noConfusion h
        · simp only [Except.ok.injEq, Prod.mk.injEq] at h
          exact h.2.symm

/-- C5 amended: when the metadata carries the native identifier keys, the
native identifiers are selected, but the allocator has already been advanced:
`chooseMetadataIds` (the embedding of source lines 365-369) returns the native
list together with the counter advanced by the batch size, and every
successful `_generate_seq_sets` run leaves the counter advanced by the batch
size.  Discarded allocator identifiers are never reused, so allocator-issued
identifiers stay globally unique. -/
theorem C5_native_ids_counter_still_advances {ρ : Type} [Inhabited ρ]
    (schema : SchemaInputs) (batch : DLBatch ρ) (vcf : VcfHandle)
    (gen : VariantRecord → String) (mutf : MutFn ρ)
    (seq_to_meta : List (String × String)) (c : SampleCounter)
    (search rc : Bool) (f0 : String) (r0 : Ranges) (l : List String)
    (hf0 : (all_meta_fields_of seq_to_meta).head? = some f0)
    (hr0 : lookupRanges batch.metadata f0 = Except.ok r0)
    (hud : (batch.metadata.lookup "_id").isSome)
    (hid : batch.metadata.lookup "id" = some (.ids l))
    (hlen : r0.chr.length = l.length) :
    chooseMetadataIds batch.metadata c r0.chr.length =
      Except.ok (l, ⟨c.sample_it_counter + r0.chr.length⟩) ∧
    ∀ res cOut, _generate_seq_sets schema batch vcf gen mutf seq_to_meta c
      search rc = Except.ok (res, cOut) →
      cOut = ⟨c.sample_it_counter + r0.chr.length⟩ := by
  have hchoose : chooseMetadataIds batch.metadata c r0.chr.length =
      Except.ok (l, ⟨c.sample_it_counter + r0.chr.length⟩) := by
    simp [chooseMetadataIds, hud, hid, hlen, SampleCounter.get_ids]
  exact ⟨hchoose, generate_seq_sets_counter schema batch vcf gen mutf
    seq_to_meta c search rc f0 r0 l _ hf0 hr0 hchoose⟩

/-- C5 witness: the amended theorem applied to the batch of the
counterexample — native identifiers selected, counter advanced from 0 to 2. -/
theorem C5_witness :
    chooseMetadataIds
      [("m1", .ranges ⟨["chr1", "chr1"], [0, 50], [10, 60], .absent, none⟩),
       ("_id", .ids ["x", "y"]), ("id", .ids ["s0", "s1"])] ⟨0⟩ 2 =
      Except.ok (["s0", "s1"], ⟨2⟩) :=
  (C5_native_ids_counter_still_advances SchemaInputs.dict
    ({ inputs := Inputs.dict [("seq1", ["r0", "r1"])],
       metadata := [("m1", .ranges ⟨["chr1", "chr1"], [0, 50], [10, 60], .absent, none⟩),
         ("_id", .ids ["x", "y"]), ("id", .ids ["s0", "s1"])] } : DLBatch String)
    ⟨["chr1"], [⟨"chr1", 55, "A", "G", "v1"⟩]⟩ (fun r => r.rid)
    (fun _ r _ a _ => r ++ a) [("seq1", "m1")] ⟨0⟩ true false "m1"
    ⟨["chr1", "chr1"], [0, 50], [10, 60], .absent, none⟩ ["s0", "s1"]
    rfl rfl (by decide) rfl rfl).1

theorem overlapGo_no_indel (vcf_obj : VcfHandle) (regions : Ranges) :
    ∀ (cs : List String) (i : Nat) (recs : List VariantRecord) (idxs : List Nat),
      overlapGo vcf_obj regions true i cs = Except.ok (recs, idxs) →
      ∀ r ∈ recs, is_indel_wrapper r = false := by
  intro cs
  induction cs with
  | nil =>
    intro i recs idxs h r hr
    simp only [overlapGo, Except.ok.injEq, Prod.mk.injEq] at h
    rw [← h.1] at hr
    simp at hr
  | cons c rest ih =>
    intro i recs idxs h r hr
    simp only [overlapGo, Bind.bind, Except.bind, if_true] at h
    split at h
    · exact Except.noConfusion h
    · split at h
      · exact Except.noConfusion h
      · split at h
        · exact Except.noConfusion h
        · split at h
          · exact Except.noConfusion h
          · rename_i v hrec
            simp only [Except.ok.injEq, Prod.mk.injEq] at h
            rw [← h.1] at hr
            rcases List.mem_append.mp hr with hl | hrr
            · exact (List.mem_filter.mp hl).2 |> fun hb => by
                simpa using hb
            · exact ih (i + 1) v.1 v.2 (by rw [hrec]) r hrr

theorem overlap_vcf_region_no_indel (vcf_obj : VcfHandle) (regions : Ranges)
    (recs : List VariantRecord) (idxs : List Nat)
    (h : _overlap_vcf_region vcf_obj regions true = Except.ok (recs, idxs)) :
    ∀ r ∈ recs, is_indel_wrapper r = false :=
  overlapGo_no_indel vcf_obj regions regions.chr 0 recs idxs h

theorem searchLine_no_indel (metadata : MetadataDict)
    (seq_to_meta : List (String × String)) (vcf_fh : VcfHandle)
    (all_meta_fields : List String) (line_id : Nat)
    (recs : List VariantRecord) (metas : List (List String))
    (h : searchLine metadata seq_to_meta vcf_fh all_meta_fields line_id =
      Except.ok (recs, metas)) :
    ∀ r ∈ recs, is_indel_wrapper r = false := by
  simp only [searchLine, Bind.bind, Except.bind] at h
  split at h
  · split at h
    · exact fun r hr => Except.noConfusion h
    · rename_i rbm hrbm
      split at h
      · exact fun r hr => Except.noConfusion h
      · rename_i merged hmerge
        split at h
        · exact fun r hr => Except.noConfusion h
        · rename_i ovpair hov
          split at h
          · exact fun r hr => Except.noConfusion h
          · rename_i ms hms
            simp only [Except.ok.injEq, Prod.mk.injEq] at h
            intro r hr
            rw [← h.1] at hr
            exact overlap_vcf_region_no_indel vcf_fh merged.1 ovpair.1
              ovpair.2 (by rw [hov]) r hr
  · split at h
    · exact fun r hr => Except.noConfusion h
    · rename_i f0 hf0
      split at h
      · exact fun r hr => Except.noConfusion h
      · rename_i rng hrng
        split at h
        · exact fun r hr => Except.noConfusion h
        · rename_i ovpair hov
          split at h
          · exact fun r hr => Except.noConfusion h
          · rename_i ms hms
            simp only [Except.ok.injEq, Prod.mk.injEq] at h
            intro r hr
            rw [← h.1] at hr
            exact overlap_vcf_region_no_indel vcf_fh
              (get_genomicranges_line rng line_id) ovpair.1 ovpair.2
              (by rw [hov]) r hr

theorem searchGo_no_indel (metadata : MetadataDict)
    (seq_to_meta : List (String × String)) (vcf_fh : VcfHandle)
    (all_meta_fields : List String) :
    ∀ (lines : List Nat) (recs : List VariantRecord) (ls : List Nat)
      (metas : List (List String)),
      searchGo metadata seq_to_meta vcf_fh all_meta_fields lines =
        Except.ok (recs, ls, metas) →
      ∀ r ∈ recs, is_indel_wrapper r = false := by
  intro lines
  induction lines with
  | nil =>
    intro recs ls metas h r hr
    simp only [searchGo, Except.ok.injEq, Prod.mk.injEq] at h
    rw [← h.1] at hr
    simp at hr
  | cons line rest ih =>
    intro recs ls metas h r hr
    simp only [searchGo, Bind.bind, Except.bind] at h
    split at h
    · exact Except.noConfusion h
    · rename_i here hhere
      split at h
      · exact Except.noConfusion h
      · rename_i there hthere
        simp only [Except.ok.injEq, Prod.mk.injEq] at h
        rw [← h.1] at hr
        rcases List.mem_append.mp hr with hl | hrr
        · exact searchLine_no_indel metadata seq_to_meta vcf_fh
            all_meta_fields line here.1 here.2 (by rw [hhere]) r hl
        · exact ih there.1 there.2.1 there.2.2 (by rw [hthere]) r hrr

/-- C3 amended, search half: every record an assignment triple of the search
strategy carries is a non-indel — `_overlap_vcf_region` is called with
`exclude_indels` left at its `True` default, filtering indel records out of
every region query. -/
theorem C3_search_strategy_excludes_indels (metadata : MetadataDict)
    (seq_to_meta : List (String × String)) (vcf_fh : VcfHandle)
    (recs : List VariantRecord) (lines : List Nat) (fls : List (List String))
    (h : get_variants_in_regions_search_vcf metadata seq_to_meta vcf_fh =
      Except.ok (recs, lines, fls)) :
    ∀ r ∈ recs, is_indel_wrapper r = false := by
  simp only [get_variants_in_regions_search_vcf, Bind.bind, Except.bind] at h
  split at h
  · exact fun r hr => Except.noConfusion h
  · rename_i f0 hf0
    split at h
    · exact fun r hr => Except.noConfusion h
    · rename_i r0 hr0
      exact searchGo_no_indel metadata seq_to_meta vcf_fh
        (all_meta_fields_of seq_to_meta) (List.range r0.chr.length)
        recs lines fls h

/-- C3 witness: the amended theorem applied to a concrete search run whose
variant source holds one SNV and one indel on the queried region; only the
SNV is returned, and it is no indel. -/
theorem C3_witness :
    is_indel_wrapper ⟨"chr1", 5, "A", "G", "s"⟩ = false :=
  C3_search_strategy_excludes_indels
    [("m1", .ranges ⟨["chr1"], [0], [10], .absent, none⟩)] [("seq1", "m1")]
    ⟨["chr1"], [⟨"chr1", 5, "A", "G", "s"⟩, ⟨"chr1", 6, "A", "AT", "i"⟩]⟩
    [⟨"chr1", 5, "A", "G", "s"⟩] [0] [["seq1"]] rfl
    ⟨"chr1", 5, "A", "G", "s"⟩ (List.mem_singleton.mpr rfl)

theorem processRecord_spec (seq_key : String) (ro : Ranges) (i : Nat)
    (record : VariantRecord) (l : Nat) (pid : String) (fl : List String)
    (s0 e0 : Int)
    (hnind : is_indel_wrapper record = false)
    (hs0 : ro.start.get? l = some s0)
    (he0 : ro.end_.get? l = some e0)
    (hstr : strandOkB ro.strand l = true) :
    ∃ row, processRecord seq_key ro i record (some l) (some pid) (some fl) =
      Except.ok row ∧
      (row.do_mutate = true ↔
        (seq_key ∈ fl ∧ 0 ≤ record.POS - (s0 + 1) ∧
          record.POS - (s0 + 1) ≤ e0 - s0)) := by
  cases hrun : processRecord seq_key ro i record (some l) (some pid) (some fl) with
  | error e =>
    exfalso
    by_cases hmem : seq_key ∈ fl
    · by_cases hb : ¬(record.POS - (s0 + 1) < 0 ∨
          record.POS - (s0 + 1) > e0 - (s0 + 1) + 1)
      · cases hsf : ro.strand with
        | perRow sl =>
          cases hget : sl.get? l with
          | none =>
            rw [hsf] at hstr
            simp only [strandOkB, decide_eq_true_eq] at hstr
            have := List.get?_eq_none.mp hget
            omega
          | some v =>
            simp only [processRecord, hnind, hsf, Bool.false_eq_true, if_false,
              expectOr, hs0, he0, hget, Bind.bind, Except.bind, pure, Except.pure,
              if_pos hmem, if_pos hb] at hrun
            exact Except.noConfusion hrun
        | absent =>
          simp only [processRecord, hnind, hsf, Bool.false_eq_true, if_false,
            expectOr, hs0, he0, Bind.bind, Except.bind, pure, Except.pure,
            if_pos hmem, if_pos hb] at hrun
          exact Except.noConfusion hrun
        | scalar s =>
          simp only [processRecord, hnind, hsf, Bool.false_eq_true, if_false,
            expectOr, hs0, he0, Bind.bind, Except.bind, pure, Except.pure,
            if_pos hmem, if_pos hb] at hrun
          exact Except.noConfusion hrun
      · simp only [processRecord, hnind, Bool.false_eq_true, if_false,
          expectOr, hs0, he0, Bind.bind, Except.bind, pure, Except.pure,
          if_pos hmem, if_neg hb] at hrun
        exact Except.noConfusion hrun
    · simp only [processRecord, hnind, Bool.false_eq_true, if_false,
        expectOr, Bind.bind, Except.bind, pure, Except.pure, if_neg hmem] at hrun
      exact Except.noConfusion hrun
  | ok row =>
    refine ⟨row, rfl, ?_⟩
    by_cases hmem : seq_key ∈ fl
    · by_cases hb : ¬(record.POS - (s0 + 1) < 0 ∨
          record.POS - (s0 + 1) > e0 - (s0 + 1) + 1)
      · cases hsf : ro.strand with
        | perRow sl =>
          cases hget : sl.get? l with
          | none =>
            exfalso
            rw [hsf] at hstr
            simp only [strandOkB, decide_eq_true_eq] at hstr
            have := List.get?_eq_none.mp hget
            omega
          | some v =>
            simp only [processRecord, hnind, hsf, Bool.false_eq_true, if_false,
              expectOr, hs0, he0, hget, Bind.bind, Except.bind, pure, Except.pure,
              if_pos hmem, if_pos hb, Except.ok.injEq] at hrun
            rw [← hrun]
            exact iff_of_true rfl ⟨hmem, by omega⟩
        | absent =>
          simp only [processRecord, hnind, hsf, Bool.false_eq_true, if_false,
            expectOr, hs0, he0, Bind.bind, Except.bind, pure, Except.pure,
            if_pos hmem, if_pos hb, Except.ok.injEq] at hrun
          rw [← hrun]
          exact iff_of_true rfl ⟨hmem, by omega⟩
        | scalar s =>
          simp only [processRecord, hnind, hsf, Bool.false_eq_true, if_false,
            expectOr, hs0, he0, Bind.bind, Except.bind, pure, Except.pure,
            if_pos hmem, if_pos hb, Except.ok.injEq] at hrun
          rw [← hrun]
          exact iff_of_true rfl ⟨hmem, by omega⟩
      · simp only [processRecord, hnind, Bool.false_eq_true, if_false,
          expectOr, hs0, he0, Bind.bind, Except.bind, pure, Except.pure,
          if_pos hmem, if_neg hb, Except.ok.injEq] at hrun
        rw [← hrun]
        refine iff_of_false (by simp) ?_
        intro hc
        exact hb (by omega)
    · simp only [processRecord, hnind, Bool.false_eq_true, if_false,
        expectOr, Bind.bind, Except.bind, pure, Except.pure, if_neg hmem, Except.ok.injEq] at hrun
      rw [← hrun]
      refine iff_of_false (by simp) ?_
      exact fun hc => hmem hc.1

theorem getVariantsDfGo_spec (seq_key : String) (ro : Ranges)
    (pl : List Nat) (pids : List String) (pfs : List (List String)) :
    ∀ (recs : List VariantRecord) (n : Nat),
      (∀ r ∈ recs, is_indel_wrapper r = false) →
      (∀ j, j < recs.length →
        ∃ l pid fl s0 e0, pl.get? (n + j) = some l ∧
          pids.get? (n + j) = some pid ∧ pfs.get? (n + j) = some fl ∧
          ro.start.get? l = some s0 ∧ ro.end_.get? l = some e0 ∧
          strandOkB ro.strand l = true) →
      ∃ rows, getVariantsDfGo seq_key ro pl pids pfs n recs = Except.ok rows ∧
        rows.length = recs.length ∧
        ∀ j r l fl s0 e0, recs.get? j = some r → pl.get? (n + j) = some l →
          pfs.get? (n + j) = some fl → ro.start.get? l = some s0 →
          ro.end_.get? l = some e0 →
          ∃ row, rows.get? j = some row ∧
            (row.do_mutate = true ↔ (seq_key ∈ fl ∧ 0 ≤ r.POS - (s0 + 1) ∧
              r.POS - (s0 + 1) ≤ e0 - s0)) := by
  intro recs
  induction recs with
  | nil =>
    intro n hnind hwf
    refine ⟨[], rfl, rfl, ?_⟩
    intro j r l fl s0 e0 hr
    simp at hr
  | cons rec0 rs ih =>
    intro n hnind hwf
    obtain ⟨l, pid, fl, s0, e0, hl, hpid, hfl, hs0, he0, hstr⟩ :=
      hwf 0 (Nat.succ_pos _)
    rw [Nat.add_zero] at hl hpid hfl
    obtain ⟨row0, hrow0, hiff0⟩ := processRecord_spec seq_key ro n rec0 l pid
      fl s0 e0 (hnind rec0 (List.mem_cons_self _ _)) hs0 he0 hstr
    obtain ⟨rows, hrows, hlen, hspec⟩ := ih (n + 1)
      (fun r hr => hnind r (List.mem_cons_of_mem _ hr))
      (fun j hj => by
        obtain ⟨l2, pid2, fl2, s02, e02, h1, h2, h3, h4, h5, h6⟩ :=
          hwf (j + 1) (Nat.succ_lt_succ hj)
        refine ⟨l2, pid2, fl2, s02, e02, ?_, ?_, ?_, h4, h5, h6⟩ <;>
          rw [show n + 1 + j = n + (j + 1) from by omega]
        exacts [h1, h2, h3])
    refine ⟨row0 :: rows, ?_, by simp [hlen], ?_⟩
    · simp only [getVariantsDfGo, hl, hpid, hfl, hrow0, hrows, Bind.bind,
        Except.bind]
    · intro j r l2 fl2 s02 e02 hr hl2 hfl2 hs02 he02
      cases j with
      | zero =>
        rw [Nat.add_zero] at hl2 hfl2
        simp only [List.get?] at hr
        injection hr with hr
        subst hr
        rw [hl] at hl2
        injection hl2 with hl2
        subst hl2
        rw [hfl] at hfl2
        injection hfl2 with hfl2
        subst hfl2
        rw [hs0] at hs02
        injection hs02 with hs02
        subst hs02
        rw [he0] at he02
        injection he02 with he02
        subst he02
        exact ⟨row0, rfl, hiff0⟩
      | succ j2 =>
        simp only [List.get?] at hr ⊢
        exact hspec j2 r l2 fl2 s02 e02 hr
          (by rw [show n + 1 + j2 = n + (j2 + 1) from by omega]; exact hl2)
          (by rw [show n + 1 + j2 = n + (j2 + 1) from by omega]; exact hfl2)
          hs02 he02

/-- C7: `get_variants_df` never raises on an out-of-bounds relative offset.
Given non-indel records and in-range row data — with no assumption on where
the variants lie — the call returns a row table (no exception), and row `j`
carries `do_mutate = true` exactly when the field is affected and the
relative offset `POS - (start + 1)` lies inside the closed interval
`[0, end - start]` of the 0-based region bounds; any offset outside is merely
marked do-not-mutate. -/
theorem C7_out_of_bounds_offsets_marked_not_raised (seq_key : String)
    (ro : Ranges) (recs : List VariantRecord) (pl : List Nat)
    (pids : List String) (pfs : List (List String))
    (hnind : ∀ r ∈ recs, is_indel_wrapper r = false)
    (hwf : ∀ j, j < recs.length →
      ∃ l pid fl s0 e0, pl.get? j = some l ∧ pids.get? j = some pid ∧
        pfs.get? j = some fl ∧ ro.start.get? l = some s0 ∧
        ro.end_.get? l = some e0 ∧ strandOkB ro.strand l = true) :
    ∃ rows, get_variants_df seq_key ro recs pl pids pfs = Except.ok rows ∧
      rows.length = recs.length ∧
      ∀ j r l fl s0 e0, recs.get? j = some r → pl.get? j = some l →
        pfs.get? j = some fl → ro.start.get? l = some s0 →
        ro.end_.get? l = some e0 →
        ∃ row, rows.get? j = some row ∧
          (row.do_mutate = true ↔ (seq_key ∈ fl ∧ 0 ≤ r.POS - (s0 + 1) ∧
            r.POS - (s0 + 1) ≤ e0 - s0)) := by
  obtain ⟨rows, hgo, hlen, hspec⟩ := getVariantsDfGo_spec seq_key ro pl pids
    pfs recs 0 hnind (by
      intro j hj
      simp only [Nat.zero_add]
      exact hwf j hj)
  cases hsf : ro.strand with
  | perRow sl =>
    refine ⟨rows, ?_, hlen, ?_⟩
    · simp only [get_variants_df, hgo, hsf, Bind.bind, Except.bind]
    · intro j r l fl s0 e0 h1 h2 h3 h4 h5
      exact hspec j r l fl s0 e0 h1 (by simpa using h2) (by simpa using h3)
        h4 h5
  | absent =>
    refine ⟨rows.map (fun r => { r with strand := some "*" }), ?_,
      by simp [hlen], ?_⟩
    · simp only [get_variants_df, hgo, hsf, Bind.bind, Except.bind]
    · intro j r l fl s0 e0 h1 h2 h3 h4 h5
      obtain ⟨row, hrow, hiff⟩ := hspec j r l fl s0 e0 h1 (by simpa using h2)
        (by simpa using h3) h4 h5
      refine ⟨{ row with strand := some "*" }, ?_, hiff⟩
      rw [List.get?_eq_getElem?, List.getElem?_map, ← List.get?_eq_getElem?, hrow]
      rfl
  | scalar s =>
    refine ⟨rows.map (fun r => { r with strand := some s }), ?_,
      by simp [hlen], ?_⟩
    · simp only [get_variants_df, hgo, hsf, Bind.bind, Except.bind]
    · intro j r l fl s0 e0 h1 h2 h3 h4 h5
      obtain ⟨row, hrow, hiff⟩ := hspec j r l fl s0 e0 h1 (by simpa using h2)
        (by simpa using h3) h4 h5
      refine ⟨{ row with strand := some s }, ?_, hiff⟩
      rw [List.get?_eq_getElem?, List.getElem?_map, ← List.get?_eq_getElem?, hrow]
      rfl

/-- C7 witness: the theorem applied to the concrete region `[100, 110)` with
one variant at position 105 (offset 4, in bounds). -/
theorem C7_witness :
    ∃ rows, get_variants_df "seq1" ⟨["chr1"], [100], [110], .absent, none⟩
      [⟨"chr1", 105, "A", "G", "v"⟩] [0] ["v"] [["seq1"]] = Except.ok rows ∧
      rows.length = 1 ∧
      ∀ j r l fl s0 e0,
        [(⟨"chr1", 105, "A", "G", "v"⟩ : VariantRecord)].get? j = some r →
        [0].get? j = some l → [["seq1"]].get? j = some fl →
        ((⟨["chr1"], [100], [110], .absent, none⟩ : Ranges)).start.get? l = some s0 →
        ((⟨["chr1"], [100], [110], .absent, none⟩ : Ranges)).end_.get? l = some e0 →
        ∃ row, rows.get? j = some row ∧
          (row.do_mutate = true ↔ ("seq1" ∈ fl ∧ 0 ≤ r.POS - (s0 + 1) ∧
            r.POS - (s0 + 1) ≤ e0 - s0)) :=
  C7_out_of_bounds_offsets_marked_not_raised "seq1"
    ⟨["chr1"], [100], [110], .absent, none⟩ [⟨"chr1", 105, "A", "G", "v"⟩]
    [0] ["v"] [["seq1"]] (by decide)
    (fun j hj => by
      cases j with
      | zero => exact ⟨0, "v", ["seq1"], 100, 110, rfl, rfl, rfl, rfl, rfl, rfl⟩
      | succ j2 => simp at hj)

/-- C6 amended: single-row regions on the same chromosome that merely touch
at an endpoint (`end` of one equals `start` of the other) are NOT merged by
`merge_intervals`: the output keeps two rows in sorted order, each carrying
only its own field's provenance (strict-overlap semantics of
`IntervalTree.merge_overlaps`); and the strand-aware variant raises on every
non-empty input of single-row regions — a KeyError when the first field's
regions carry no `strand` key (its `["strand"][0]` read precedes the
membership test), and the unhashable-list TypeError when a per-row strand is
present. -/
theorem C6_touching_not_merged (k1 k2 c : String) (s1 e1 s2 e2 : Int)
    (h1 : s1 < e1) (h2 : s2 < e2) (ht : e1 = s2) :
    merge_intervals [(k1, mkRanges1 c s1 e1), (k2, mkRanges1 c s2 e2)] =
      Except.ok (⟨[c, c], [s1, s2], [e1, e2], .perRow ["*", "*"], none⟩,
        [[k1], [k2]]) ∧
    (∀ rest, merge_intervals_strandaware ((k1, mkRanges1 c s1 e1) :: rest) =
      Except.error "KeyError: strand") ∧
    (∀ rest st l, merge_intervals_strandaware
        ((k1, ⟨[c], [s1], [e1], .perRow (st :: l), none⟩) :: rest) =
      Except.error "TypeError: unhashable type: list") := by
  constructor
  · have hle : IvLe ⟨s1, e1, [k1]⟩ ⟨s2, e2, [k2]⟩ := by
      simp only [IvLe, ivLeB]
      rw [if_neg (show ¬ (s1 = s2) from by omega)]
      exact decide_eq_true (by omega)
    simp [merge_intervals, extractEntries, extractRegion1, mkRanges1,
      expectOr, mergeCore, dedupKeepFirst, dedupKeepFirstAux, chromIvals,
      mergeChrom, entryIv, List.insertionSort, List.orderedInsert, sweep,
      sweepAux, Bind.bind, Except.bind, pure, Except.pure, hle,
      show ¬ (s1 ≥ e1) from by omega, show ¬ (s2 ≥ e2) from by omega,
      show ¬ (s2 < e1) from by omega]
  · constructor
    · intro rest
      simp [merge_intervals_strandaware, mkRanges1, expectOr,
        Bind.bind, Except.bind]
    · intro rest st l
      simp [merge_intervals_strandaware, expectOr, Bind.bind, Except.bind]

/-- C6 witness: the amended theorem applied at the touching pair
`[0, 5)`/`[5, 10)`. -/
theorem C6_witness :
    merge_intervals [("a", mkRanges1 "chr1" 0 5), ("b", mkRanges1 "chr1" 5 10)] =
      Except.ok (⟨["chr1", "chr1"], [0, 5], [5, 10], .perRow ["*", "*"], none⟩,
        [["a"], ["b"]]) :=
  (C6_touching_not_merged "a" "b" "chr1" 0 5 5 10 (by decide) (by decide)
    rfl).1

theorem charListLeB_total : ∀ a b : List Char,
    charListLeB a b = true ∨ charListLeB b a = true := by
  intro a
  induction a with
  | nil => intro b; left; rfl
  | cons x xs ih =>
    intro b
    cases b with
    | nil => right; rfl
    | cons y ys =>
      simp only [charListLeB]
      rcases Nat.lt_trichotomy x.toNat y.toNat with hlt | heq | hgt
      · left; rw [if_pos hlt]
      · rw [if_neg (by omega), if_neg (by omega), if_neg (by omega),
          if_neg (by omega)]
        exact ih ys
      · right; rw [if_pos hgt]

theorem charListLeB_antisymm : ∀ a b : List Char,
    charListLeB a b = true → charListLeB b a = true → a = b := by
  intro a
  induction a with
  | nil =>
    intro b h1 h2
    cases b with
    | nil => rfl
    | cons y ys => simp [charListLeB] at h2
  | cons x xs ih =>
    intro b h1 h2
    cases b with
    | nil => simp [charListLeB] at h1
    | cons y ys =>
      simp only [charListLeB] at h1 h2
      rcases Nat.lt_trichotomy x.toNat y.toNat with hlt | heq | hgt
      · rw [if_neg (by omega), if_pos hlt] at h2
        exact Bool.noConfusion h2
      · have hxy : x = y := Char.ext (UInt32.ext heq)
        subst hxy
        rw [if_neg (by omega), if_neg (by omega)] at h1 h2
        rw [ih ys h1 h2]
      · rw [if_neg (by omega), if_pos hgt] at h1
        exact Bool.noConfusion h1

theorem charListLeB_trans : ∀ a b c : List Char,
    charListLeB a b = true → charListLeB b c = true →
    charListLeB a c = true := by
  intro a
  induction a with
  | nil => intro b c h1 h2; rfl
  | cons x xs ih =>
    intro b c h1 h2
    cases b with
    | nil => simp [charListLeB] at h1
    | cons y ys =>
      cases c with
      | nil => simp [charListLeB] at h2
      | cons z zs =>
        simp only [charListLeB] at h1 h2 ⊢
        rcases Nat.lt_trichotomy x.toNat y.toNat with hxy | hxy | hxy
        · rcases Nat.lt_trichotomy y.toNat z.toNat with hyz | hyz | hyz
          · rw [if_pos (by omega)]
          · rw [if_pos (by omega)]
          · rw [if_neg (by omega), if_pos hyz] at h2
            exact Bool.noConfusion h2
        · rcases Nat.lt_trichotomy y.toNat z.toNat with hyz | hyz | hyz
          · rw [if_pos (by omega)]
          · rw [if_neg (by omega), if_neg (by omega)]
            rw [if_neg (by omega), if_neg (by omega)] at h1
            rw [if_neg (by omega), if_neg (by omega)] at h2
            have hxy2 : x = y := Char.ext (UInt32.ext hxy)
            subst hxy2
            exact ih ys zs h1 h2
          · rw [if_neg (by omega), if_pos hyz] at h2
            exact Bool.noConfusion h2
        · rw [if_neg (by omega), if_pos hxy] at h1
          exact Bool.noConfusion h1

theorem strLeB_total (a b : String) : strLeB a b = true ∨ strLeB b a = true :=
  charListLeB_total a.data b.data

theorem strLeB_antisymm (a b : String) (h1 : strLeB a b = true)
    (h2 : strLeB b a = true) : a = b :=
  String.ext (charListLeB_antisymm a.data b.data h1 h2)

theorem strLeB_trans (a b c : String) (h1 : strLeB a b = true)
    (h2 : strLeB b c = true) : strLeB a c = true :=
  charListLeB_trans a.data b.data c.data h1 h2

theorem strListLeB_total : ∀ a b : List String,
    strListLeB a b = true ∨ strListLeB b a = true := by
  intro a
  induction a with
  | nil => intro b; left; rfl
  | cons x xs ih =>
    intro b
    cases b with
    | nil => right; rfl
    | cons y ys =>
      simp only [strListLeB]
      by_cases hxy : x = y
      · subst hxy
        rw [if_pos rfl, if_pos rfl]
        exact ih ys
      · rw [if_neg hxy, if_neg (fun h => hxy h.symm)]
        exact strLeB_total x y

theorem strListLeB_antisymm : ∀ a b : List String,
    strListLeB a b = true → strListLeB b a = true → a = b := by
  intro a
  induction a with
  | nil =>
    intro b h1 h2
    cases b with
    | nil => rfl
    | cons y ys => simp [strListLeB] at h2
  | cons x xs ih =>
    intro b h1 h2
    cases b with
    | nil => simp [strListLeB] at h1
    | cons y ys =>
      simp only [strListLeB] at h1 h2
      by_cases hxy : x = y
      · subst hxy
        rw [if_pos rfl] at h1 h2
        rw [ih ys h1 h2]
      · rw [if_neg hxy] at h1
        rw [if_neg (fun h => hxy h.symm)] at h2
        exact absurd (strLeB_antisymm x y h1 h2) hxy

theorem strListLeB_trans : ∀ a b c : List String,
    strListLeB a b = true → strListLeB b c = true →
    strListLeB a c = true := by
  intro a
  induction a with
  | nil => intro b c h1 h2; rfl
  | cons x xs ih =>
    intro b c h1 h2
    cases b with
    | nil => simp [strListLeB] at h1
    | cons y ys =>
      cases c with
      | nil => simp [strListLeB] at h2
      | cons z zs =>
        simp only [strListLeB] at h1 h2 ⊢
        by_cases hxy : x = y
        · subst hxy
          rw [if_pos rfl] at h1
          by_cases hyz : x = z
          · subst hyz
            rw [if_pos rfl] at h2
            rw [if_pos rfl]
            exact ih ys zs h1 h2
          · rw [if_neg hyz] at h2
            rw [if_neg hyz]
            exact h2
        · rw [if_neg hxy] at h1
          by_cases hyz : y = z
          · subst hyz
            rw [if_neg hxy]
            exact h1
          · rw [if_neg hyz] at h2
            by_cases hxz : x = z
            · subst hxz
              exact absurd (strLeB_antisymm x y h1 h2) hxy
            · rw [if_neg hxz]
              exact strLeB_trans x y z h1 h2

theorem IvLe_of_blt {x y : Iv} (h : x.b < y.b) : IvLe x y := by
  simp only [IvLe, ivLeB]
  rw [if_neg (by omega)]
  exact decide_eq_true h

theorem IvLe.b_le {x y : Iv} (h : IvLe x y) : x.b ≤ y.b := by
  simp only [IvLe, ivLeB] at h
  by_cases hb : x.b = y.b
  · omega
  · rw [if_neg hb, decide_eq_true_eq] at h
    omega

instance : IsTotal Iv IvLe := by
  constructor
  intro x y
  simp only [IvLe, ivLeB]
  by_cases hb : x.b = y.b
  · rw [if_pos hb, if_pos hb.symm]
    by_cases he : x.e = y.e
    · rw [if_pos he, if_pos he.symm]
      exact strListLeB_total x.data y.data
    · rw [if_neg he, if_neg (fun h => he h.symm), decide_eq_true_eq,
        decide_eq_true_eq]
      omega
  · rw [if_neg hb, if_neg (fun h => hb h.symm), decide_eq_true_eq,
      decide_eq_true_eq]
    omega

instance : IsAntisymm Iv IvLe := by
  constructor
  intro x y h1 h2
  simp only [IvLe, ivLeB] at h1 h2
  by_cases hb : x.b = y.b
  · rw [if_pos hb] at h1
    rw [if_pos hb.symm] at h2
    by_cases he : x.e = y.e
    · rw [if_pos he] at h1
      rw [if_pos he.symm] at h2
      have hd := strListLeB_antisymm x.data y.data h1 h2
      cases x; cases y
      simp_all
    · rw [if_neg he, decide_eq_true_eq] at h1
      rw [if_neg (fun h => he h.symm), decide_eq_true_eq] at h2
      omega
  · rw [if_neg hb, decide_eq_true_eq] at h1
    rw [if_neg (fun h => hb h.symm), decide_eq_true_eq] at h2
    omega

instance : IsTrans Iv IvLe := by
  constructor
  intro x y z h1 h2
  simp only [IvLe, ivLeB] at h1 h2 ⊢
  by_cases hxy : x.b = y.b
  · rw [if_pos hxy] at h1
    by_cases hyz : y.b = z.b
    · rw [if_pos hyz] at h2
      rw [if_pos (hxy.trans hyz)]
      by_cases hexy : x.e = y.e
      · rw [if_pos hexy] at h1
        by_cases heyz : y.e = z.e
        · rw [if_pos heyz] at h2
          rw [if_pos (hexy.trans heyz)]
          exact strListLeB_trans x.data y.data z.data h1 h2
        · rw [if_neg heyz, decide_eq_true_eq] at h2
          rw [if_neg (by omega), decide_eq_true_eq]
          omega
      · rw [if_neg hexy, decide_eq_true_eq] at h1
        by_cases heyz : y.e = z.e
        · rw [if_neg (by omega), decide_eq_true_eq]
          omega
        · rw [if_neg heyz, decide_eq_true_eq] at h2
          by_cases hexz : x.e = z.e
          · omega
          · rw [if_neg hexz, decide_eq_true_eq]
            omega
    · rw [if_neg hyz, decide_eq_true_eq] at h2
      rw [if_neg (by omega), decide_eq_true_eq]
      omega
  · rw [if_neg hxy, decide_eq_true_eq] at h1
    by_cases hyz : y.b = z.b
    · rw [if_neg (by omega), decide_eq_true_eq]
      omega
    · rw [if_neg hyz, decide_eq_true_eq] at h2
      rw [if_neg (by omega), decide_eq_true_eq]
      omega

theorem sweepAux_cons : ∀ (l : List Iv) (cur : Iv),
    ∃ z t, sweepAux cur l = z :: t ∧ z.b = cur.b := by
  intro l
  induction l with
  | nil => intro cur; exact ⟨cur, [], rfl, rfl⟩
  | cons y rest ih =>
    intro cur
    simp only [sweepAux]
    by_cases hc : y.b < cur.e
    · rw [if_pos hc]
      obtain ⟨z, t, hz, hb⟩ := ih _
      exact ⟨z, t, hz, hb⟩
    · rw [if_neg hc]
      exact ⟨cur, sweepAux y rest, rfl, rfl⟩

theorem sweepAux_chain : ∀ (l : List Iv) (cur : Iv),
    List.Chain' (fun x y : Iv => x.b ≤ y.b) (cur :: l) →
    List.Chain' (fun x y : Iv => x.e ≤ y.b) (sweepAux cur l) := by
  intro l
  induction l with
  | nil => intro cur _; simp [sweepAux]
  | cons y rest ih =>
    intro cur hch
    rw [List.chain'_cons] at hch
    simp only [sweepAux]
    by_cases hc : y.b < cur.e
    · rw [if_pos hc]
      apply ih
      cases rest with
      | nil => simp
      | cons z t =>
        rw [List.chain'_cons] at hch ⊢
        refine ⟨?_, hch.2.2⟩
        show cur.b ≤ z.b
        have h1 := hch.1
        have h2 := hch.2.1
        omega
    · rw [if_neg hc]
      obtain ⟨z, t, hz, hb⟩ := sweepAux_cons rest y
      rw [hz]
      rw [List.chain'_cons]
      constructor
      · rw [hb]; omega
      · rw [← hz]
        exact ih y hch.2

theorem sweepAux_bounds : ∀ (l : List Iv) (cur : Iv),
    cur.b < cur.e → (∀ y ∈ l, y.b < y.e) →
    ∀ iv ∈ sweepAux cur l, iv.b < iv.e := by
  intro l
  induction l with
  | nil =>
    intro cur hcur _ iv hiv
    simp only [sweepAux, List.mem_singleton] at hiv
    rw [hiv]; exact hcur
  | cons y rest ih =>
    intro cur hcur hall iv hiv
    simp only [sweepAux] at hiv
    by_cases hc : y.b < cur.e
    · rw [if_pos hc] at hiv
      refine ih _ ?_ (fun z hz => hall z (List.mem_cons_of_mem _ hz)) iv hiv
      simp only []
      have := hall y (List.mem_cons_self _ _)
      omega
    · rw [if_neg hc] at hiv
      rcases List.mem_cons.mp hiv with h | h
      · rw [h]; exact hcur
      · exact ih y (hall y (List.mem_cons_self _ _))
          (fun z hz => hall z (List.mem_cons_of_mem _ hz)) iv h

theorem sweepAux_fixed : ∀ (l : List Iv) (cur : Iv),
    List.Chain' (fun x y : Iv => x.e ≤ y.b) (cur :: l) →
    sweepAux cur l = cur :: l := by
  intro l
  induction l with
  | nil => intro cur _; rfl
  | cons y rest ih =>
    intro cur hch
    rw [List.chain'_cons] at hch
    simp only [sweepAux]
    rw [if_neg (by omega)]
    rw [ih y hch.2]

theorem chain_blt_of_gap : ∀ l : List Iv,
    List.Chain' (fun x y : Iv => x.e ≤ y.b) l → (∀ iv ∈ l, iv.b < iv.e) →
    List.Chain' (fun x y : Iv => x.b < y.b) l := by
  intro l
  induction l with
  | nil => intro _ _; simp
  | cons x rest ih =>
    intro hch hall
    cases rest with
    | nil => simp
    | cons y t =>
      rw [List.chain'_cons] at hch ⊢
      refine ⟨?_, ih hch.2 (fun iv hiv => hall iv (List.mem_cons_of_mem _ hiv))⟩
      have := hall x (List.mem_cons_self _ _)
      omega

theorem sorted_of_gap_chain (l : List Iv)
    (hch : List.Chain' (fun x y : Iv => x.e ≤ y.b) l)
    (hall : ∀ iv ∈ l, iv.b < iv.e) : List.Sorted IvLe l := by
  haveI : IsTrans Iv (fun x y : Iv => x.b < y.b) :=
    ⟨fun a b c h1 h2 => lt_trans h1 h2⟩
  have hblt := chain_blt_of_gap l hch hall
  have hpw : List.Pairwise (fun x y : Iv => x.b < y.b) l :=
    List.chain'_iff_pairwise.mp hblt
  exact hpw.imp (fun h => IvLe_of_blt h)

theorem insertionSort_fixed (l : List Iv) (h : List.Sorted IvLe l) :
    List.insertionSort IvLe l = l :=
  List.eq_of_perm_of_sorted (List.perm_insertionSort IvLe l)
    (List.sorted_insertionSort IvLe l) h

theorem sweep_gap_chain (l : List Iv) (h : List.Sorted IvLe l) :
    List.Chain' (fun x y : Iv => x.e ≤ y.b) (sweep l) := by
  cases l with
  | nil => simp [sweep]
  | cons x xs =>
    simp only [sweep]
    apply sweepAux_chain
    exact (h.imp (fun hle => IvLe.b_le hle)).chain'

theorem sweep_bounds (l : List Iv) (h : ∀ iv ∈ l, iv.b < iv.e) :
    ∀ iv ∈ sweep l, iv.b < iv.e := by
  cases l with
  | nil => simp [sweep]
  | cons x xs =>
    simp only [sweep]
    exact sweepAux_bounds xs x (h x (List.mem_cons_self _ _))
      (fun y hy => h y (List.mem_cons_of_mem _ hy))

theorem sweep_ne_nil (l : List Iv) (h : l ≠ []) : sweep l ≠ [] := by
  cases l with
  | nil => exact absurd rfl h
  | cons x xs =>
    simp only [sweep]
    obtain ⟨z, t, hz, _⟩ := sweepAux_cons xs x
    rw [hz]
    exact List.cons_ne_nil z t

theorem sweep_fixed (l : List Iv)
    (h : List.Chain' (fun x y : Iv => x.e ≤ y.b) l) : sweep l = l := by
  cases l with
  | nil => rfl
  | cons x xs => exact sweepAux_fixed xs x h

theorem mergeChrom_gap_chain (es : List (String × String × Int × Int))
    (c : String) :
    List.Chain' (fun x y : Iv => x.e ≤ y.b) (mergeChrom es c) :=
  sweep_gap_chain _ (List.sorted_insertionSort IvLe _)

theorem mergeChrom_bounds (es : List (String × String × Int × Int))
    (c : String) (h : ∀ x ∈ es, x.2.2.1 < x.2.2.2) :
    ∀ iv ∈ mergeChrom es c, iv.b < iv.e := by
  apply sweep_bounds
  intro iv hiv
  have hmem := (List.perm_insertionSort IvLe (chromIvals es c)).mem_iff.mp hiv
  simp only [chromIvals, List.mem_map, List.mem_filter] at hmem
  obtain ⟨x, ⟨hx, _⟩, hxe⟩ := hmem
  rw [← hxe]
  exact h x hx

theorem mergeChrom_ne_nil (es : List (String × String × Int × Int))
    (c : String) (h : chromIvals es c ≠ []) : mergeChrom es c ≠ [] := by
  apply sweep_ne_nil
  intro hnil
  exact h (List.Perm.eq_nil ((List.perm_insertionSort IvLe _).symm.trans
    (by rw [hnil])))

theorem mergeChrom_fixed (es : List (String × String × Int × Int)) (c : String)
    (hch : List.Chain' (fun x y : Iv => x.e ≤ y.b) (chromIvals es c))
    (hb : ∀ iv ∈ chromIvals es c, iv.b < iv.e) :
    mergeChrom es c = chromIvals es c := by
  unfold mergeChrom
  rw [insertionSort_fixed _ (sorted_of_gap_chain _ hch hb)]
  exact sweep_fixed _ hch

theorem dedupKeepFirstAux_mem : ∀ (l : List String) (seen : List String)
    (a : String), a ∈ dedupKeepFirstAux seen l ↔ (a ∈ l ∧ a ∉ seen) := by
  intro l
  induction l with
  | nil => intro seen a; simp [dedupKeepFirstAux]
  | cons x xs ih =>
    intro seen a
    simp only [dedupKeepFirstAux]
    by_cases hx : x ∈ seen
    · rw [if_pos hx, ih]
      constructor
      · exact fun ⟨h1, h2⟩ => ⟨List.mem_cons_of_mem _ h1, h2⟩
      · rintro ⟨h1, h2⟩
        rcases List.mem_cons.mp h1 with h | h
        · subst h; exact absurd hx h2
        · exact ⟨h, h2⟩
    · rw [if_neg hx]
      simp only [List.mem_cons, ih]
      constructor
      · rintro (h | ⟨h1, h2⟩)
        · subst h; exact ⟨Or.inl rfl, hx⟩
        · exact ⟨Or.inr h1, fun hc => h2 (Or.inr hc)⟩
      · rintro ⟨h1 | h1, h2⟩
        · exact Or.inl h1
        · by_cases hax : a = x
          · exact Or.inl hax
          · exact Or.inr ⟨h1, fun hc => by
              rcases hc with h | h
              · exact hax h
              · exact h2 h⟩

theorem dedupKeepFirstAux_nodup : ∀ (l : List String) (seen : List String),
    (dedupKeepFirstAux seen l).Nodup := by
  intro l
  induction l with
  | nil => intro seen; simp [dedupKeepFirstAux]
  | cons x xs ih =>
    intro seen
    simp only [dedupKeepFirstAux]
    by_cases hx : x ∈ seen
    · rw [if_pos hx]; exact ih seen
    · rw [if_neg hx]
      refine List.Nodup.cons ?_ (ih (x :: seen))
      intro hc
      exact ((dedupKeepFirstAux_mem xs (x :: seen) x).mp hc).2
        (List.mem_cons_self _ _)

theorem dedupKeepFirst_mem (l : List String) (a : String) :
    a ∈ dedupKeepFirst l ↔ a ∈ l := by
  rw [dedupKeepFirst, dedupKeepFirstAux_mem]
  simp

theorem dedupKeepFirst_nodup (l : List String) : (dedupKeepFirst l).Nodup :=
  dedupKeepFirstAux_nodup l []

theorem dedupKeepFirstAux_replicate_skip : ∀ (m : Nat) (c : String)
    (t : List String) (seen : List String), c ∈ seen →
    dedupKeepFirstAux seen (List.replicate m c ++ t) =
      dedupKeepFirstAux seen t := by
  intro m
  induction m with
  | zero => intro c t seen _; rfl
  | succ m2 ih =>
    intro c t seen hc
    simp only [List.replicate, List.cons_append, dedupKeepFirstAux, if_pos hc]
    exact ih c t seen hc

theorem dedupKeepFirstAux_blocks : ∀ (cs : List String) (n : String → Nat)
    (seen : List String), cs.Nodup → (∀ c ∈ cs, c ∉ seen) →
    (∀ c ∈ cs, n c ≠ 0) →
    dedupKeepFirstAux seen
      ((cs.map (fun c => List.replicate (n c) c)).flatten) = cs := by
  intro cs
  induction cs with
  | nil => intro n seen _ _ _; rfl
  | cons c rest ih =>
    intro n seen hnd hseen hn
    simp only [List.map_cons, List.flatten_cons]
    cases hm : n c with
    | zero => exact absurd hm (hn c (List.mem_cons_self _ _))
    | succ m =>
      simp only [List.replicate, List.cons_append, dedupKeepFirstAux,
        if_neg (hseen c (List.mem_cons_self _ _))]
      simp only [List.append_eq]
      rw [dedupKeepFirstAux_replicate_skip m c _ _ (List.mem_cons_self _ _)]
      rw [ih n (c :: seen) (List.Nodup.of_cons hnd)
        (fun c2 hc2 => by
          intro hc
          rcases List.mem_cons.mp hc with h | h
          · subst h
            exact (List.nodup_cons.mp hnd).1 hc2
          · exact hseen c2 (List.mem_cons_of_mem _ hc2) h)
        (fun c2 hc2 => hn c2 (List.mem_cons_of_mem _ hc2))]

theorem filter_labelled_blocks : ∀ (cs : List String) (F : String → List Iv)
    (c0 : String), cs.Nodup →
    ((c0 ∈ cs →
      ((cs.map (fun c => (F c).map (fun iv => (c, iv)))).flatten).filter
        (fun p => decide (p.1 = c0)) = (F c0).map (fun iv => (c0, iv))) ∧
    (c0 ∉ cs →
      ((cs.map (fun c => (F c).map (fun iv => (c, iv)))).flatten).filter
        (fun p => decide (p.1 = c0)) = [])) := by
  intro cs
  induction cs with
  | nil => intro F c0 _; exact ⟨fun h => absurd h (List.not_mem_nil c0), fun _ => rfl⟩
  | cons c rest ih =>
    intro F c0 hnd
    have hblock : ∀ d : String, ((F c).map (fun iv => (c, iv))).filter
        (fun p => decide (p.1 = d)) =
        if c = d then (F c).map (fun iv => (c, iv)) else [] := by
      intro d
      by_cases hcd : c = d
      · rw [if_pos hcd]
        apply List.filter_eq_self.mpr
        intro p hp
        simp only [List.mem_map] at hp
        obtain ⟨iv, _, hiv⟩ := hp
        rw [← hiv]
        simp [hcd]
      · rw [if_neg hcd]
        apply List.filter_eq_nil_iff.mpr
        intro p hp
        simp only [List.mem_map] at hp
        obtain ⟨iv, _, hiv⟩ := hp
        rw [← hiv]
        simp [hcd]
    constructor
    · intro hc0
      simp only [List.map_cons, List.flatten_cons, List.filter_append, hblock]
      rcases List.mem_cons.mp hc0 with h | h
      · subst h
        rw [if_pos rfl,
          ((ih F c0 (List.Nodup.of_cons hnd)).2 (List.nodup_cons.mp hnd).1),
          List.append_nil]
      · rw [if_neg (fun hcc => by subst hcc; exact (List.nodup_cons.mp hnd).1 h),
          ((ih F c0 (List.Nodup.of_cons hnd)).1 h), List.nil_append]
    · intro hc0
      simp only [List.map_cons, List.flatten_cons, List.filter_append, hblock]
      rw [if_neg (fun hcc => hc0 (by rw [← hcc]; exact List.mem_cons_self c rest)),
        ((ih F c0 (List.Nodup.of_cons hnd)).2
          (fun hc => hc0 (List.mem_cons_of_mem _ hc))), List.nil_append]

theorem zip_filter_snd : ∀ (ns : List String) (rows : List (String × Iv))
    (P : (String × Iv) → Bool), ns.length = rows.length →
    ((ns.zip rows).filter (fun p => P p.2)).map Prod.snd = rows.filter P := by
  intro ns
  induction ns with
  | nil =>
    intro rows P hlen
    cases rows with
    | nil => rfl
    | cons r t => exact absurd hlen (by simp)
  | cons n nt ih =>
    intro rows P hlen
    cases rows with
    | nil => exact absurd hlen (by simp)
    | cons r t =>
      simp only [List.zip_cons_cons, List.filter_cons]
      by_cases hP : P r
      · rw [if_pos hP, if_pos hP]
        simp only [List.map_cons]
        rw [ih t P (by simpa using hlen)]
      · rw [if_neg hP, if_neg hP]
        rw [ih t P (by simpa using hlen)]

theorem zip_maps_three {α : Type} (rows : List α) (f : α → String)
    (g h : α → Int) :
    (rows.map f).zip ((rows.map g).zip (rows.map h)) =
      rows.map (fun r => (f r, g r, h r)) := by
  induction rows with
  | nil => rfl
  | cons r t ih => simp only [List.map_cons, List.zip_cons_cons, ih]

theorem zip_maps_four {α β : Type} (rows : List α) (f : α → String)
    (g h : α → Int) (k : α → β) :
    (rows.map f).zip ((rows.map g).zip ((rows.map h).zip (rows.map k))) =
      rows.map (fun r => (f r, g r, h r, k r)) := by
  induction rows with
  | nil => rfl
  | cons r t ih => simp only [List.map_cons, List.zip_cons_cons, ih]

theorem strip_transport : ∀ (l1 l2 : List Iv),
    l1.map (fun iv => (iv.b, iv.e)) = l2.map (fun iv => (iv.b, iv.e)) →
    (List.Chain' (fun x y : Iv => x.e ≤ y.b) l1 →
      List.Chain' (fun x y : Iv => x.e ≤ y.b) l2) ∧
    ((∀ iv ∈ l1, iv.b < iv.e) → (∀ iv ∈ l2, iv.b < iv.e)) := by
  intro l1
  induction l1 with
  | nil =>
    intro l2 heq
    cases l2 with
    | nil => exact ⟨fun _ => List.chain'_nil, fun _ iv hiv => absurd hiv (List.not_mem_nil iv)⟩
    | cons y t => simp at heq
  | cons x t1 ih =>
    intro l2 heq
    cases l2 with
    | nil => simp at heq
    | cons y t2 =>
      simp only [List.map_cons, List.cons.injEq, Prod.mk.injEq] at heq
      obtain ⟨⟨hb, he⟩, htail⟩ := heq
      constructor
      · intro hch
        cases t1 with
        | nil =>
          cases t2 with
          | nil => simp
          | cons z t3 => simp at htail
        | cons z1 t3 =>
          cases t2 with
          | nil => simp at htail
          | cons z2 t4 =>
            rw [List.chain'_cons] at hch ⊢
            simp only [List.map_cons, List.cons.injEq, Prod.mk.injEq] at htail
            constructor
            · omega
            · exact (ih (z2 :: t4) (by
                simp only [List.map_cons, List.cons.injEq, Prod.mk.injEq]
                exact htail)).1 hch.2
      · intro hall iv hiv
        rcases List.mem_cons.mp hiv with h | h
        · subst h
          have := hall x (List.mem_cons_self _ _)
          omega
        · exact (ih t2 htail).2
            (fun z hz => hall z (List.mem_cons_of_mem _ hz)) iv h

theorem extractRegion1_bounds (r : Ranges) (c : String) (s e : Int)
    (h : extractRegion1 r = Except.ok (c, s, e)) : s < e := by
  simp only [extractRegion1, Bind.bind, Except.bind] at h
  split at h
  · exact Except.noConfusion h
  · split at h
    · exact Except.noConfusion h
    · rename_i c2 hc2
      split at h
      · exact Except.noConfusion h
      · rename_i s2 hs2
        split at h
        · exact Except.noConfusion h
        · rename_i e2 he2
          split at h
          · exact Except.noConfusion h
          · rename_i hlt
            simp only [Except.ok.injEq, Prod.mk.injEq] at h
            omega

theorem extractRegion1_mk (c : String) (s e : Int) (h : s < e) :
    extractRegion1 (mkRanges1 c s e) = Except.ok (c, s, e) := by
  simp [extractRegion1, mkRanges1, expectOr, Bind.bind, Except.bind,
    show ¬ (s ≥ e) from by omega]

theorem extractEntries_bounds : ∀ (rd : List (String × Ranges))
    (es : List (String × String × Int × Int)),
    extractEntries rd = Except.ok es → ∀ x ∈ es, x.2.2.1 < x.2.2.2 := by
  intro rd
  induction rd with
  | nil =>
    intro es h x hx
    simp only [extractEntries, Except.ok.injEq] at h
    rw [← h] at hx
    exact absurd hx (List.not_mem_nil x)
  | cons kr rest ih =>
    intro es h x hx
    simp only [extractEntries, Bind.bind, Except.bind] at h
    split at h
    · exact Except.noConfusion h
    · rename_i cse hcse
      split at h
      · exact Except.noConfusion h
      · rename_i es2 hes2
        simp only [Except.ok.injEq] at h
        rw [← h] at hx
        rcases List.mem_cons.mp hx with h2 | h2
        · subst h2
          exact extractRegion1_bounds kr.2 cse.1 cse.2.1 cse.2.2
            (by rw [hcse])
        · exact ih es2 (by rw [hes2]) x h2

theorem extractEntries_mk : ∀ (l : List (String × String × Int × Int)),
    (∀ x ∈ l, x.2.2.1 < x.2.2.2) →
    extractEntries (l.map (fun x => (x.1, mkRanges1 x.2.1 x.2.2.1 x.2.2.2))) =
      Except.ok l := by
  intro l
  induction l with
  | nil => intro _; rfl
  | cons x t ih =>
    intro hb
    simp only [List.map_cons, extractEntries, Bind.bind, Except.bind]
    rw [extractRegion1_mk x.2.1 x.2.2.1 x.2.2.2 (hb x (List.mem_cons_self _ _))]
    rw [ih (fun y hy => hb y (List.mem_cons_of_mem _ hy))]

theorem extractEntries_cons_ok (k : String) (r : Ranges)
    (rest : List (String × Ranges)) (cse : String × Int × Int)
    (es : List (String × String × Int × Int))
    (h1 : extractRegion1 r = Except.ok cse)
    (h2 : extractEntries rest = Except.ok es) :
    extractEntries ((k, r) :: rest) = Except.ok ((k, cse) :: es) := by
  simp only [extractEntries, h1, h2, Bind.bind, Except.bind]

theorem extractEntries_perm : ∀ (rd rd2 : List (String × Ranges)),
    rd2.Perm rd → ∀ es, extractEntries rd = Except.ok es →
    ∃ es2, extractEntries rd2 = Except.ok es2 ∧ es2.Perm es := by
  intro rd rd2 hperm
  induction hperm with
  | nil =>
    intro es h
    exact ⟨es, h, by
      simp only [extractEntries, Except.ok.injEq] at h
      rw [← h]⟩
  | cons x htail ih =>
    intro es h
    simp only [extractEntries, Bind.bind, Except.bind] at h
    split at h
    · exact Except.noConfusion h
    · rename_i cse hcse
      split at h
      · exact Except.noConfusion h
      · rename_i es3 hes3
        obtain ⟨es4, hes4, hp4⟩ := ih es3 hes3
        simp only [Except.ok.injEq] at h
        refine ⟨(x.1, cse) :: es4, ?_, ?_⟩
        · exact extractEntries_cons_ok x.1 x.2 _ cse es4 hcse hes4
        · rw [← h]
          exact List.Perm.cons _ hp4
  | swap x y l =>
    intro es h
    simp only [extractEntries, Bind.bind, Except.bind] at h
    split at h
    · exact Except.noConfusion h
    · rename_i cse1 hcse1
      split at h
      · exact Except.noConfusion h
      · rename_i rest2 hrest2
        split at hrest2
        · exact Except.noConfusion hrest2
        · rename_i cse2 hcse2
          split at hrest2
          · exact Except.noConfusion hrest2
          · rename_i es3 hes3
            simp only [Except.ok.injEq] at h hrest2
            refine ⟨(y.1, cse2) :: (x.1, cse1) :: es3, ?_, ?_⟩
            · exact extractEntries_cons_ok y.1 y.2 _ cse2 _ hcse2
                (extractEntries_cons_ok x.1 x.2 _ cse1 es3 hcse1 hes3)
            · rw [← h, ← hrest2]
              exact List.Perm.swap _ _ _
  | trans h12 h23 ih12 ih23 =>
    intro es h
    obtain ⟨es2, hes2, hp2⟩ := ih23 es h
    obtain ⟨es3, hes3, hp3⟩ := ih12 es2 hes2
    exact ⟨es3, hes3, hp3.trans hp2⟩

theorem zip_map_snd_proj {γ : Type} : ∀ (ns : List String)
    (rows : List (String × Iv)) (f : (String × Iv) → γ),
    ns.length = rows.length →
    (ns.zip rows).map (fun p => f p.2) = rows.map f := by
  intro ns
  induction ns with
  | nil =>
    intro rows f hlen
    cases rows with
    | nil => rfl
    | cons r t => exact absurd hlen (by simp)
  | cons n nt ih =>
    intro rows f hlen
    cases rows with
    | nil => exact absurd hlen (by simp)
    | cons r t =>
      simp only [List.zip_cons_cons, List.map_cons]
      rw [ih t f (by simpa using hlen)]

theorem chromIvals_ne_nil (es : List (String × String × Int × Int))
    (c : String) (hc : c ∈ es.map (fun x => x.2.1)) :
    chromIvals es c ≠ [] := by
  simp only [List.mem_map] at hc
  obtain ⟨x, hx, hxc⟩ := hc
  have : entryIv x ∈ chromIvals es c := by
    apply List.mem_map_of_mem
    exact List.mem_filter.mpr ⟨hx, by simp [hxc]⟩
  exact List.ne_nil_of_mem this

theorem mergeChrom_congr_perm (es es2 : List (String × String × Int × Int))
    (c : String) (hperm : es2.Perm es) : mergeChrom es2 c = mergeChrom es c := by
  unfold mergeChrom
  have hiv : (chromIvals es2 c).Perm (chromIvals es c) := by
    unfold chromIvals
    exact ((hperm.filter _).map entryIv)
  rw [List.eq_of_perm_of_sorted
    (((List.perm_insertionSort IvLe _).trans hiv).trans
      (List.perm_insertionSort IvLe _).symm)
    (List.sorted_insertionSort IvLe _) (List.sorted_insertionSort IvLe _)]

theorem mergeCore_labels (es : List (String × String × Int × Int)) :
    (mergeCore es).map (fun x => x.1) =
      ((dedupKeepFirst (es.map (fun x => x.2.1))).map
        (fun c => List.replicate (mergeChrom es c).length c)).flatten := by
  unfold mergeCore
  rw [List.map_flatten, List.map_map]
  congr 1
  apply List.map_congr_left
  intro c _
  simp only [Function.comp_apply, List.map_map]
  have : ((fun x : String × Iv => x.1) ∘ fun iv : Iv => (c, iv)) =
      Function.const Iv c := rfl
  rw [this, List.map_const]

theorem merge_intervals_eq (rd : List (String × Ranges))
    (es : List (String × String × Int × Int))
    (hex : extractEntries rd = Except.ok es) :
    merge_intervals rd = Except.ok
      (⟨(mergeCore es).map (fun x => x.1), (mergeCore es).map (fun x => x.2.b),
        (mergeCore es).map (fun x => x.2.e),
        .perRow ((mergeCore es).map (fun _ => "*")), none⟩,
      (mergeCore es).map (fun x => x.2.data)) := by
  simp only [merge_intervals, hex, Bind.bind, Except.bind]

theorem mergeCore_bounds (es : List (String × String × Int × Int))
    (h : ∀ x ∈ es, x.2.2.1 < x.2.2.2) :
    ∀ q ∈ mergeCore es, q.2.b < q.2.e := by
  intro q hq
  unfold mergeCore at hq
  rw [List.mem_flatten] at hq
  obtain ⟨blk, hblk, hqblk⟩ := hq
  simp only [List.mem_map] at hblk
  obtain ⟨c, _, hc⟩ := hblk
  rw [← hc] at hqblk
  simp only [List.mem_map] at hqblk
  obtain ⟨iv, hiv, hivq⟩ := hqblk
  rw [← hivq]
  exact mergeChrom_bounds es c h iv hiv

theorem merge_intervals_idempotent (rd : List (String × Ranges))
    (es : List (String × String × Int × Int))
    (hexc : extractEntries rd = Except.ok es) (names2 : List String)
    (hlenr : names2.length = (mergeCore es).length) :
    ∃ ks2, merge_intervals (representMerged
      ⟨(mergeCore es).map (fun x => x.1), (mergeCore es).map (fun x => x.2.b),
        (mergeCore es).map (fun x => x.2.e),
        .perRow ((mergeCore es).map (fun _ => "*")), none⟩ names2) =
      Except.ok
        (⟨(mergeCore es).map (fun x => x.1), (mergeCore es).map (fun x => x.2.b),
          (mergeCore es).map (fun x => x.2.e),
          .perRow ((mergeCore es).map (fun _ => "*")), none⟩, ks2) := by
  have hentry := extractEntries_bounds rd es hexc
  have hrowsb := mergeCore_bounds es hentry
  have hrepr : representMerged
      ⟨(mergeCore es).map (fun x => x.1), (mergeCore es).map (fun x => x.2.b),
        (mergeCore es).map (fun x => x.2.e),
        .perRow ((mergeCore es).map (fun _ => "*")), none⟩ names2 =
      ((names2.zip (mergeCore es)).map
        (fun p => (p.1, p.2.1, p.2.2.b, p.2.2.e))).map
        (fun x => (x.1, mkRanges1 x.2.1 x.2.2.1 x.2.2.2)) := by
    unfold representMerged
    rw [zip_maps_three (mergeCore es) (fun x => x.1) (fun x => x.2.b)
      (fun x => x.2.e)]
    rw [List.zip_map_right, List.map_map, List.map_map]
    apply List.map_congr_left
    rintro ⟨n, q⟩ _
    rfl
  have hes2b : ∀ x ∈ (names2.zip (mergeCore es)).map
      (fun p => (p.1, p.2.1, p.2.2.b, p.2.2.e)), x.2.2.1 < x.2.2.2 := by
    intro x hx
    simp only [List.mem_map] at hx
    obtain ⟨⟨n, q⟩, hp, hpx⟩ := hx
    rw [← hpx]
    exact hrowsb q (List.of_mem_zip hp).2
  have hex2 : extractEntries (representMerged
      ⟨(mergeCore es).map (fun x => x.1), (mergeCore es).map (fun x => x.2.b),
        (mergeCore es).map (fun x => x.2.e),
        .perRow ((mergeCore es).map (fun _ => "*")), none⟩ names2) =
      Except.ok ((names2.zip (mergeCore es)).map
        (fun p => (p.1, p.2.1, p.2.2.b, p.2.2.e))) := by
    rw [hrepr]
    exact extractEntries_mk _ hes2b
  have hform2 := merge_intervals_eq _ _ hex2
  have hmap1 : ((names2.zip (mergeCore es)).map
      (fun p => (p.1, p.2.1, p.2.2.b, p.2.2.e))).map (fun x => x.2.1) =
      (mergeCore es).map (fun x => x.1) := by
    rw [List.map_map]
    have : ((fun x : String × String × Int × Int => x.2.1) ∘
        (fun p : String × (String × Iv) => (p.1, p.2.1, p.2.2.b, p.2.2.e))) =
        (fun p : String × (String × Iv) => p.2.1) := by
      funext p
      rfl
    rw [this]
    exact zip_map_snd_proj names2 (mergeCore es) (fun q => q.1) hlenr
  have hFne : ∀ c ∈ dedupKeepFirst (es.map (fun x => x.2.1)),
      mergeChrom es c ≠ [] := fun c hc =>
    mergeChrom_ne_nil es c (chromIvals_ne_nil es c
      ((dedupKeepFirst_mem _ c).mp hc))
  have hcs2 : dedupKeepFirst (((names2.zip (mergeCore es)).map
      (fun p => (p.1, p.2.1, p.2.2.b, p.2.2.e))).map (fun x => x.2.1)) =
      dedupKeepFirst (es.map (fun x => x.2.1)) := by
    rw [hmap1, mergeCore_labels es]
    exact dedupKeepFirstAux_blocks _ (fun c => (mergeChrom es c).length) []
      (dedupKeepFirst_nodup _) (fun c _ => List.not_mem_nil c)
      (fun c hc => by
        intro hzero
        exact hFne c hc (List.length_eq_zero.mp hzero))
  have hstripc : ∀ c ∈ dedupKeepFirst (es.map (fun x => x.2.1)),
      (chromIvals ((names2.zip (mergeCore es)).map
        (fun p => (p.1, p.2.1, p.2.2.b, p.2.2.e))) c).map
        (fun iv => (iv.b, iv.e)) =
      (mergeChrom es c).map (fun iv => (iv.b, iv.e)) := by
    intro c hc
    unfold chromIvals
    rw [List.filter_map, List.map_map, List.map_map]
    have e1 : ((fun x : String × String × Int × Int => decide (x.2.1 = c)) ∘
        (fun p : String × (String × Iv) => (p.1, p.2.1, p.2.2.b, p.2.2.e))) =
        (fun p : String × (String × Iv) => decide (p.2.1 = c)) := by
      funext p
      rfl
    have e2 : (((fun iv : Iv => (iv.b, iv.e)) ∘ entryIv) ∘
        (fun p : String × (String × Iv) => (p.1, p.2.1, p.2.2.b, p.2.2.e))) =
        ((fun q : String × Iv => (q.2.b, q.2.e)) ∘ Prod.snd) := by
      funext p
      rfl
    rw [e1, e2, ← List.map_map]
    have e3 : (fun p : String × (String × Iv) => decide (p.2.1 = c)) =
        (fun p : String × (String × Iv) =>
          (fun q : String × Iv => decide (q.1 = c)) p.2) := rfl
    rw [e3, zip_filter_snd names2 (mergeCore es)
      (fun q : String × Iv => decide (q.1 = c)) hlenr]
    unfold mergeCore
    rw [(filter_labelled_blocks (dedupKeepFirst (es.map (fun x => x.2.1)))
      (fun c2 => mergeChrom es c2) c (dedupKeepFirst_nodup _)).1 hc]
    rw [List.map_map]
    rfl
  have hfix : ∀ c ∈ dedupKeepFirst (es.map (fun x => x.2.1)),
      mergeChrom ((names2.zip (mergeCore es)).map
        (fun p => (p.1, p.2.1, p.2.2.b, p.2.2.e))) c =
      chromIvals ((names2.zip (mergeCore es)).map
        (fun p => (p.1, p.2.1, p.2.2.b, p.2.2.e))) c := by
    intro c hc
    apply mergeChrom_fixed
    · exact (strip_transport (mergeChrom es c) _ (hstripc c hc).symm).1
        (mergeChrom_gap_chain es c)
    · exact (strip_transport (mergeChrom es c) _ (hstripc c hc).symm).2
        (mergeChrom_bounds es c hentry)
  have hproj : (mergeCore ((names2.zip (mergeCore es)).map
      (fun p => (p.1, p.2.1, p.2.2.b, p.2.2.e)))).map
      (fun x => (x.1, x.2.b, x.2.e)) =
      (mergeCore es).map (fun x => (x.1, x.2.b, x.2.e)) := by
    conv_lhs => rw [mergeCore]
    conv_rhs => rw [mergeCore]
    rw [hcs2]
    rw [List.map_flatten, List.map_flatten, List.map_map, List.map_map]
    congr 1
    apply List.map_congr_left
    intro c hc
    simp only [Function.comp_apply]
    rw [hfix c hc, List.map_map, List.map_map]
    have e4 : ((fun x : String × Iv => (x.1, x.2.b, x.2.e)) ∘
        (fun iv : Iv => (c, iv))) = (fun iv : Iv => (c, iv.b, iv.e)) := by
      funext iv
      rfl
    rw [e4]
    have e5 := congrArg (List.map (fun be : Int × Int => (c, be.1, be.2)))
      (hstripc c hc)
    rw [List.map_map, List.map_map] at e5
    have e6 : ((fun be : Int × Int => (c, be.1, be.2)) ∘
        (fun iv : Iv => (iv.b, iv.e))) = (fun iv : Iv => (c, iv.b, iv.e)) := by
      funext iv
      rfl
    rw [e6] at e5
    exact e5
  have hchr2 := congrArg (List.map (fun t : String × Int × Int => t.1)) hproj
  have hstart2 := congrArg (List.map (fun t : String × Int × Int => t.2.1)) hproj
  have hend2 := congrArg (List.map (fun t : String × Int × Int => t.2.2)) hproj
  rw [List.map_map, List.map_map] at hchr2 hstart2 hend2
  have p1 : ((fun t : String × Int × Int => t.1) ∘
      (fun x : String × Iv => (x.1, x.2.b, x.2.e))) =
      (fun x : String × Iv => x.1) := by
    funext x
    rfl
  have p2 : ((fun t : String × Int × Int => t.2.1) ∘
      (fun x : String × Iv => (x.1, x.2.b, x.2.e))) =
      (fun x : String × Iv => x.2.b) := by
    funext x
    rfl
  have p3 : ((fun t : String × Int × Int => t.2.2) ∘
      (fun x : String × Iv => (x.1, x.2.b, x.2.e))) =
      (fun x : String × Iv => x.2.e) := by
    funext x
    rfl
  rw [p1] at hchr2
  rw [p2] at hstart2
  rw [p3] at hend2
  have hlen4 : (mergeCore ((names2.zip (mergeCore es)).map
      (fun p => (p.1, p.2.1, p.2.2.b, p.2.2.e)))).length =
      (mergeCore es).length := by
    have := congrArg List.length hproj
    simpa using this
  have hstar : (mergeCore ((names2.zip (mergeCore es)).map
      (fun p => (p.1, p.2.1, p.2.2.b, p.2.2.e)))).map (fun _ => "*") =
      (mergeCore es).map (fun _ => "*") := by
    have h1 : ∀ (l : List (String × Iv)), l.map (fun _ => "*") =
        List.replicate l.length "*" := fun l => List.map_const l "*"
    rw [h1, h1, hlen4]
  refine ⟨(mergeCore ((names2.zip (mergeCore es)).map
    (fun p => (p.1, p.2.1, p.2.2.b, p.2.2.e)))).map (fun x => x.2.data), ?_⟩
  rw [hform2, hchr2, hstart2, hend2, hstar]

theorem merge_intervals_perm_invariant (rd rd2 : List (String × Ranges))
    (es : List (String × String × Int × Int))
    (hexc : extractEntries rd = Except.ok es) (hperm : rd2.Perm rd) :
    ∃ es2, extractEntries rd2 = Except.ok es2 ∧
      ((mergeCore es2).map (fun x => (x.1, x.2.b, x.2.e, x.2.data))).Perm
        ((mergeCore es).map (fun x => (x.1, x.2.b, x.2.e, x.2.data))) := by
  obtain ⟨es2, hex2, hpe⟩ := extractEntries_perm rd rd2 hperm es hexc
  refine ⟨es2, hex2, ?_⟩
  have hcs : (dedupKeepFirst (es2.map (fun x => x.2.1))).Perm
      (dedupKeepFirst (es.map (fun x => x.2.1))) := by
    rw [List.perm_ext_iff_of_nodup (dedupKeepFirst_nodup _)
      (dedupKeepFirst_nodup _)]
    intro a
    rw [dedupKeepFirst_mem, dedupKeepFirst_mem]
    exact (hpe.map (fun x => x.2.1)).mem_iff
  unfold mergeCore
  rw [List.map_flatten, List.map_flatten, List.map_map, List.map_map]
  have hfun : ((List.map (fun x : String × Iv => (x.1, x.2.b, x.2.e, x.2.data))) ∘
      (fun c => (mergeChrom es2 c).map (fun iv => (c, iv)))) =
      ((List.map (fun x : String × Iv => (x.1, x.2.b, x.2.e, x.2.data))) ∘
      (fun c => (mergeChrom es c).map (fun iv => (c, iv)))) := by
    funext c
    simp only [Function.comp_apply]
    rw [mergeChrom_congr_perm es es2 c hpe]
  rw [hfun]
  exact (hcs.map _).flatten

/-- C9: `merge_intervals` is idempotent and order-independent.  (1) Feeding
every row of a merged output back in as its own single-row field (under any
fresh field names) reproduces exactly the same merged GenomicRanges — same
chromosome/start/end rows in the same order.  (2) Permuting the input field
dictionary yields a merged output whose rows — chromosome, bounds, and
provenance field-name list per row — are a permutation of the original rows
(provenance membership preserved; only row listing order across chromosome
groups may change). -/
theorem C9_merge_idempotent_and_order_independent
    (ranges_dict : List (String × Ranges)) (out : Ranges)
    (ks : List (List String))
    (hmerge : merge_intervals ranges_dict = Except.ok (out, ks)) :
    (∀ names2 : List String, names2.length = out.chr.length →
      ∃ ks2, merge_intervals (representMerged out names2) =
        Except.ok (out, ks2)) ∧
    (∀ perm_dict : List (String × Ranges), perm_dict.Perm ranges_dict →
      ∃ out2 ks2, merge_intervals perm_dict = Except.ok (out2, ks2) ∧
        (out2.chr.zip (out2.start.zip (out2.end_.zip ks2))).Perm
          (out.chr.zip (out.start.zip (out.end_.zip ks)))) := by
  cases hexc : extractEntries ranges_dict with
  | error e =>
    simp only [merge_intervals, hexc, Bind.bind, Except.bind] at hmerge
    exact Except.noConfusion hmerge
  | ok es =>
    have hform := merge_intervals_eq ranges_dict es hexc
    rw [hmerge] at hform
    simp only [Except.ok.injEq, Prod.mk.injEq] at hform
    obtain ⟨hout, hks⟩ := hform
    subst hout
    subst hks
    constructor
    · intro names2 hlen2
      apply merge_intervals_idempotent ranges_dict es hexc names2
      simpa using hlen2
    · intro perm_dict hp
      obtain ⟨es2, hex2, hpm⟩ :=
        merge_intervals_perm_invariant ranges_dict perm_dict es hexc hp
      refine ⟨_, _, merge_intervals_eq perm_dict es2 hex2, ?_⟩
      rw [zip_maps_four, zip_maps_four]
      exact hpm

theorem C9_witness :
    ∃ ks2, merge_intervals (representMerged
        ⟨["1"], [10], [25], .perRow ["*"], none⟩ ["m0"]) =
      Except.ok ((⟨["1"], [10], [25], .perRow ["*"], none⟩ : Ranges), ks2) :=
  (C9_merge_idempotent_and_order_independent
      [("a", mkRanges1 "1" 10 20), ("b", mkRanges1 "1" 15 25)]
      ⟨["1"], [10], [25], .perRow ["*"], none⟩ [["a", "b"]] rfl).1
    ["m0"] (by decide)

/-- C8 (amended): whether a sequence field referenced by an assignment but
absent from the batch inputs is fatal depends on the container shape.
(1) Named mapping: when `seq_key` names no field, the dispatch raises the
fatal Exception.  (2) Ordered sequence of named fields: when `seq_key`
matches no schema element name, the dispatch succeeds and every position is
returned unchanged — the missing field is silently skipped.  (3) Single
unnamed field: the dispatch mutates unconditionally; no notion of a missing
field exists. -/
theorem C8_missing_field_by_shape {ρ : Type} (mutf : MutFn ρ)
    (seq_key : String) (vl : List PreprocRow) (allele s_dir : String) :
    (∀ fields : List (String × List ρ), fields.lookup seq_key = none →
      applyMut mutf .dict (.dict fields) seq_key vl allele s_dir =
        Except.error ("Exception: Sequence field " ++ seq_key ++
          " is missing in DataLoader output!")) ∧
    (∀ (names : List String) (fs : List (List ρ)),
      seq_key ∉ names → fs.length = names.length →
      applyMut mutf (.ordered names) (.ordered fs) seq_key vl allele s_dir =
        Except.ok (.ordered fs)) ∧
    (∀ rows : List ρ,
      applyMut mutf .single (.single rows) seq_key vl allele s_dir =
        Except.ok (.single (mutateRows mutf seq_key rows vl allele s_dir))) := by
  refine ⟨?_, ?_, ?_⟩
  · intro fields hmiss
    simp [applyMut, hmiss]
  · intro names fs hnot hlen
    simp only [applyMut, Except.ok.injEq, Inputs.ordered.injEq]
    have hcongr : (fs.zip names).map (fun rn =>
        if rn.2 = seq_key then mutateRows mutf seq_key rn.1 vl allele s_dir
        else rn.1) = (fs.zip names).map Prod.fst := by
      apply List.map_congr_left
      intro rn hrn
      have hmem : rn.2 ∈ names := (List.of_mem_zip hrn).2
      have hne : rn.2 ≠ seq_key := fun he => hnot (he ▸ hmem)
      simp [hne]
    rw [hcongr, List.map_fst_zip fs names (le_of_eq hlen)]
  · intro rows
    rfl

theorem C8_witness :
    applyMut (fun _ r _ a _ => r ++ a : MutFn String) .dict
        (.dict [("other", ["r0"])]) "seq1" [] "alt" "fwd" =
      Except.error ("Exception: Sequence field " ++ "seq1" ++
        " is missing in DataLoader output!") ∧
    applyMut (fun _ r _ a _ => r ++ a : MutFn String) (.ordered ["other"])
        (.ordered [["r0"]]) "seq1" [] "alt" "fwd" =
      Except.ok (.ordered [["r0"]]) :=
  ⟨(C8_missing_field_by_shape (fun _ r _ a _ => r ++ a : MutFn String)
      "seq1" [] "alt" "fwd").1 [("other", ["r0"])] rfl,
   (C8_missing_field_by_shape (fun _ r _ a _ => r ++ a : MutFn String)
      "seq1" [] "alt" "fwd").2.1 ["other"] [["r0"]] (by decide) rfl⟩

theorem expectOr_ok {α : Type} (o : Option α) (msg : String) (v : α)
    (h : expectOr o msg = Except.ok v) : o = some v := by
  cases o with
  | none => simp [expectOr] at h
  | some w =>
    simp only [expectOr, Except.ok.injEq] at h
    rw [h]

theorem overlapGo_lengths (vcf : VcfHandle) (regions : Ranges) (x : Bool)
    (cs : List String) :
    ∀ (i : Nat) (recs : List VariantRecord) (ls : List Nat),
      overlapGo vcf regions x i cs = Except.ok (recs, ls) →
      ls.length = recs.length := by
  induction cs with
  | nil =>
    intro i recs ls h
    simp only [overlapGo, Except.ok.injEq, Prod.mk.injEq] at h
    obtain ⟨h1, h2⟩ := h
    subst h1
    subst h2
    rfl
  | cons c rest ih =>
    intro i recs ls h
    simp only [overlapGo, Bind.bind, Except.bind] at h
    split at h
    · exact Except.noConfusion h
    · rename_i lbl hlbl
      split at h
      · exact Except.noConfusion h
      · rename_i s hs
        split at h
        · exact Except.noConfusion h
        · rename_i e he
          split at h
          · exact Except.noConfusion h
          · rename_i rr hrr
            simp only [Except.ok.injEq, Prod.mk.injEq] at h
            obtain ⟨h1, h2⟩ := h
            rw [← h1, ← h2]
            simp [ih _ _ _ hrr]

theorem metasOfSubs_length (stm : List (String × String))
    (mf : List (List String)) (subs : List Nat) :
    ∀ ms, metasOfSubs stm mf subs = Except.ok ms → ms.length = subs.length := by
  induction subs with
  | nil =>
    intro ms h
    simp only [metasOfSubs, Except.ok.injEq] at h
    subst h
    rfl
  | cons s rest ih =>
    intro ms h
    simp only [metasOfSubs, Bind.bind, Except.bind] at h
    split at h
    · exact Except.noConfusion h
    · rename_i mfs hmfs
      split at h
      · exact Except.noConfusion h
      · rename_i ms2 hms2
        simp only [Except.ok.injEq] at h
        rw [← h]
        simp [ih _ hms2]

theorem searchLine_lengths (md : MetadataDict) (stm : List (String × String))
    (vcf : VcfHandle) (amf : List String) (line_id : Nat)
    (recs : List VariantRecord) (metas : List (List String))
    (h : searchLine md stm vcf amf line_id = Except.ok (recs, metas)) :
    metas.length = recs.length := by
  simp only [searchLine, Bind.bind, Except.bind] at h
  split at h
  · split at h
    · exact Except.noConfusion h
    · rename_i rbm hrbm
      split at h
      · exact Except.noConfusion h
      · rename_i pair hpair
        split at h
        · exact Except.noConfusion h
        · rename_i vp hvp
          split at h
          · exact Except.noConfusion h
          · rename_i ms hms
            simp only [Except.ok.injEq, Prod.mk.injEq] at h
            obtain ⟨h1, h2⟩ := h
            rw [← h1, ← h2]
            have hvp2 : overlapGo vcf pair.1 true 0 pair.1.chr =
                Except.ok (vp.1, vp.2) := hvp
            rw [metasOfSubs_length stm pair.2 vp.2 ms hms,
              overlapGo_lengths vcf pair.1 true pair.1.chr 0 vp.1 vp.2 hvp2]
  · split at h
    · exact Except.noConfusion h
    · rename_i f0 hf0
      split at h
      · exact Except.noConfusion h
      · rename_i r hr
        split at h
        · exact Except.noConfusion h
        · rename_i vp hvp
          split at h
          · exact Except.noConfusion h
          · rename_i ms hms
            simp only [Except.ok.injEq, Prod.mk.injEq] at h
            obtain ⟨h1, h2⟩ := h
            rw [← h1, ← h2]
            have hvp2 : overlapGo vcf (get_genomicranges_line r line_id) true 0
                (get_genomicranges_line r line_id).chr =
                Except.ok (vp.1, vp.2) := hvp
            rw [metasOfSubs_length stm [amf] vp.2 ms hms,
              overlapGo_lengths vcf (get_genomicranges_line r line_id) true
                (get_genomicranges_line r line_id).chr 0 vp.1 vp.2 hvp2]

theorem searchGo_lengths (md : MetadataDict) (stm : List (String × String))
    (vcf : VcfHandle) (amf : List String) (lids : List Nat) :
    ∀ (recs : List VariantRecord) (lines : List Nat)
      (metas : List (List String)),
      searchGo md stm vcf amf lids = Except.ok (recs, lines, metas) →
      lines.length = recs.length ∧ metas.length = recs.length := by
  induction lids with
  | nil =>
    intro recs lines metas h
    simp only [searchGo, Except.ok.injEq, Prod.mk.injEq] at h
    obtain ⟨h1, h2, h3⟩ := h
    subst h1
    subst h2
    subst h3
    exact ⟨rfl, rfl⟩
  | cons lid rest ih =>
    intro recs lines metas h
    simp only [searchGo, Bind.bind, Except.bind] at h
    split at h
    · exact Except.noConfusion h
    · rename_i rm hrm
      split at h
      · exact Except.noConfusion h
      · rename_i rlm hrlm
        simp only [Except.ok.injEq, Prod.mk.injEq] at h
        obtain ⟨h1, h2, h3⟩ := h
        obtain ⟨ih1, ih2⟩ := ih rlm.1 rlm.2.1 rlm.2.2 (by rw [← hrlm])
        have hsl : rm.2.length = rm.1.length :=
          searchLine_lengths md stm vcf amf lid rm.1 rm.2 (by rw [← hrm])
        constructor
        · rw [← h1, ← h2]
          simp [ih1]
        · rw [← h1, ← h3]
          simp [ih2, hsl]

theorem search_vcf_lengths (md : MetadataDict) (stm : List (String × String))
    (vcf : VcfHandle) (recs : List VariantRecord) (lines : List Nat)
    (metas : List (List String))
    (h : get_variants_in_regions_search_vcf md stm vcf =
      Except.ok (recs, lines, metas)) :
    lines.length = recs.length ∧ metas.length = recs.length := by
  simp only [get_variants_in_regions_search_vcf, Bind.bind, Except.bind] at h
  split at h
  · exact Except.noConfusion h
  · rename_i f0 hf0
    split at h
    · exact Except.noConfusion h
    · rename_i r0 hr0
      exact searchGo_lengths md stm vcf (all_meta_fields_of stm)
        (List.range r0.chr.length) recs lines metas h

theorem getVariantsDfGo_length (seq_key : String) (ro : Ranges)
    (pls : List Nat) (pids : List String) (psf : List (List String))
    (records : List VariantRecord) :
    ∀ (i : Nat) (rows : List PreprocRow),
      getVariantsDfGo seq_key ro pls pids psf i records = Except.ok rows →
      rows.length = records.length := by
  induction records with
  | nil =>
    intro i rows h
    simp only [getVariantsDfGo, Except.ok.injEq] at h
    subst h
    rfl
  | cons record rs ih =>
    intro i rows h
    simp only [getVariantsDfGo, Bind.bind, Except.bind] at h
    split at h
    · exact Except.noConfusion h
    · rename_i row hrow
      split at h
      · exact Except.noConfusion h
      · rename_i rest hrest
        simp only [Except.ok.injEq] at h
        rw [← h]
        simp [ih _ _ hrest]

theorem get_variants_df_length (seq_key : String) (ro : Ranges)
    (records : List VariantRecord) (pls : List Nat) (pids : List String)
    (psf : List (List String)) (rows : List PreprocRow)
    (h : get_variants_df seq_key ro records pls pids psf = Except.ok rows) :
    rows.length = records.length := by
  simp only [get_variants_df, Bind.bind, Except.bind] at h
  split at h
  · exact Except.noConfusion h
  · rename_i rows0 hrows0
    have h0 := getVariantsDfGo_length seq_key ro pls pids psf records 0 rows0 hrows0
    split at h
    all_goals simp only [Except.ok.injEq] at h
    all_goals rw [← h]
    all_goals simp [h0]

theorem vlFor_length (md : MetadataDict) (stm : List (String × String))
    (records : List VariantRecord) (pls : List Nat) (pids : List String)
    (psf : List (List String)) (seq_key : String) (tab : List PreprocRow)
    (h : vlFor md stm records pls pids psf seq_key = Except.ok tab) :
    tab.length = records.length := by
  simp only [vlFor, Bind.bind, Except.bind] at h
  split at h
  · exact Except.noConfusion h
  · rename_i mf hmf
    split at h
    · exact Except.noConfusion h
    · rename_i ro hro
      exact get_variants_df_length seq_key ro records pls pids psf tab h

theorem buildProcessIds_spec (mids : List String) (pls : List Nat) :
    ∀ pids, buildProcessIds mids pls = Except.ok pids →
      pids.length = pls.length ∧
      ∀ i, i < pls.length → pids.get? i = mids.get? (pls.getD i 0) := by
  induction pls with
  | nil =>
    intro pids h
    simp only [buildProcessIds, Except.ok.injEq] at h
    subst h
    exact ⟨rfl, fun i hi => absurd hi (by simp)⟩
  | cons l rest ih =>
    intro pids h
    simp only [buildProcessIds, Bind.bind, Except.bind] at h
    split at h
    · exact Except.noConfusion h
    · rename_i v hv
      split at h
      · exact Except.noConfusion h
      · rename_i vs hvs
        simp only [Except.ok.injEq] at h
        obtain ⟨ih1, ih2⟩ := ih vs hvs
        have hg : mids.get? l = some v := expectOr_ok _ _ _ hv
        constructor
        · rw [← h]
          simp [ih1]
        · intro i hi
          rw [← h]
          cases i with
          | zero =>
            simpa [List.getD] using hg.symm
          | succ j =>
            have hj : j < rest.length := by
              simp only [List.length_cons] at hi
              omega
            have := ih2 j hj
            simpa [List.getD] using this

theorem applyMutOpt_none {ρ : Type} (mutf : MutFn ρ) (schema : SchemaInputs)
    (seq_key : String) (vl : List PreprocRow) (a d : String)
    (o : Option (Inputs ρ))
    (h : applyMutOpt mutf schema none seq_key vl a d = Except.ok o) :
    o = none := by
  simp only [applyMutOpt, Except.ok.injEq] at h
  rw [← h]

theorem applyMutOpt_some {ρ : Type} (mutf : MutFn ρ) (schema : SchemaInputs)
    (c : Inputs ρ) (seq_key : String) (vl : List PreprocRow) (a d : String)
    (o : Option (Inputs ρ))
    (h : applyMutOpt mutf schema (some c) seq_key vl a d = Except.ok o) :
    ∃ c2, applyMut mutf schema c seq_key vl a d = Except.ok c2 ∧
      o = some c2 := by
  simp only [applyMutOpt, Bind.bind, Except.bind] at h
  split at h
  · exact Except.noConfusion h
  · rename_i c2 hc2
    simp only [Except.ok.injEq] at h
    exact ⟨c2, hc2, h.symm⟩

theorem vlTabs_lengths (md : MetadataDict) (stm : List (String × String))
    (records : List VariantRecord) (pls : List Nat) (pids : List String)
    (psf : List (List String)) (keys : List String) :
    ∀ tabs, vlTabs md stm records pls pids psf keys = Except.ok tabs →
      ∀ kt ∈ tabs, kt.2.length = records.length := by
  induction keys with
  | nil =>
    intro tabs h kt hkt
    simp only [vlTabs, Except.ok.injEq] at h
    subst h
    exact absurd hkt (by simp)
  | cons k rest ih =>
    intro tabs h kt hkt
    simp only [vlTabs, Bind.bind, Except.bind] at h
    split at h
    · exact Except.noConfusion h
    · rename_i t ht
      split at h
      · exact Except.noConfusion h
      · rename_i ts hts
        simp only [Except.ok.injEq] at h
        rw [← h] at hkt
        rcases List.mem_cons.mp hkt with hkt1 | hkt2
        · rw [hkt1]
          exact vlFor_length md stm records pls pids psf k t ht
        · exact ih ts hts kt hkt2

theorem mutateAllKeys_decompose {ρ : Type} (mutf : MutFn ρ)
    (schema : SchemaInputs) (md : MetadataDict) (stm : List (String × String))
    (records : List VariantRecord) (pls : List Nat) (pids : List String)
    (psf : List (List String)) (keys : List String) :
    ∀ (cs cs2 : ComboSet ρ),
      mutateAllKeys mutf schema md stm records pls pids psf keys cs =
        Except.ok cs2 →
      applyMutKeys mutf schema md stm records pls pids psf "ref" "fwd" keys
          cs.fwd_ref = Except.ok cs2.fwd_ref ∧
      applyMutKeys mutf schema md stm records pls pids psf "alt" "fwd" keys
          cs.fwd_alt = Except.ok cs2.fwd_alt ∧
      (cs.rc_ref = none → cs2.rc_ref = none) ∧
      (∀ c, cs.rc_ref = some c → ∃ c2, cs2.rc_ref = some c2 ∧
        applyMutKeys mutf schema md stm records pls pids psf "ref" "rc" keys
          c = Except.ok c2) ∧
      (cs.rc_alt = none → cs2.rc_alt = none) ∧
      (∀ c, cs.rc_alt = some c → ∃ c2, cs2.rc_alt = some c2 ∧
        applyMutKeys mutf schema md stm records pls pids psf "alt" "rc" keys
          c = Except.ok c2) := by
  induction keys with
  | nil =>
    intro cs cs2 h
    simp only [mutateAllKeys, Except.ok.injEq] at h
    subst h
    exact ⟨rfl, rfl, fun hn => hn, fun c hc => ⟨c, hc, rfl⟩, fun hn => hn,
      fun c hc => ⟨c, hc, rfl⟩⟩
  | cons k rest ih =>
    intro cs cs2 h
    simp only [mutateAllKeys, mutateKey, Bind.bind, Except.bind] at h
    split at h
    · exact Except.noConfusion h
    · rename_i cs3 hcs3
      split at hcs3
      · exact Except.noConfusion hcs3
      · rename_i vl hvl
        split at hcs3
        · exact Except.noConfusion hcs3
        · rename_i fr hfr
          split at hcs3
          · exact Except.noConfusion hcs3
          · rename_i fa hfa
            split at hcs3
            · exact Except.noConfusion hcs3
            · rename_i rr hrr
              split at hcs3
              · exact Except.noConfusion hcs3
              · rename_i ra hra
                simp only [Except.ok.injEq] at hcs3
                subst hcs3
                obtain ⟨d1, d2, d3n, d3s, d4n, d4s⟩ :=
                  ih ⟨fr, fa, rr, ra⟩ cs2 h
                refine ⟨?_, ?_, ?_, ?_, ?_, ?_⟩
                · simp only [applyMutKeys, Bind.bind, Except.bind, hvl, hfr]
                  exact d1
                · simp only [applyMutKeys, Bind.bind, Except.bind, hvl, hfa]
                  exact d2
                · intro hn
                  rw [hn] at hrr
                  exact d3n (applyMutOpt_none mutf schema k vl "ref" "rc" rr hrr)
                · intro c hc
                  rw [hc] at hrr
                  obtain ⟨c2, happ, hrr2⟩ :=
                    applyMutOpt_some mutf schema c k vl "ref" "rc" rr hrr
                  obtain ⟨c3, hcs3, hchain⟩ := d3s c2 hrr2
                  refine ⟨c3, hcs3, ?_⟩
                  simp only [applyMutKeys, Bind.bind, Except.bind, hvl, happ]
                  exact hchain
                · intro hn
                  rw [hn] at hra
                  exact d4n (applyMutOpt_none mutf schema k vl "alt" "rc" ra hra)
                · intro c hc
                  rw [hc] at hra
                  obtain ⟨c2, happ, hra2⟩ :=
                    applyMutOpt_some mutf schema c k vl "alt" "rc" ra hra
                  obtain ⟨c3, hcs3, hchain⟩ := d4s c2 hra2
                  refine ⟨c3, hcs3, ?_⟩
                  simp only [applyMutKeys, Bind.bind, Except.bind, hvl, happ]
                  exact hchain

theorem applyMutKeys_single {ρ : Type} (mutf : MutFn ρ) (md : MetadataDict)
    (stm : List (String × String)) (records : List VariantRecord)
    (pls : List Nat) (pids : List String) (psf : List (List String))
    (a d : String) (keys : List String) :
    ∀ (rows : List ρ) (out : Inputs ρ),
      applyMutKeys mutf .single md stm records pls pids psf a d keys
        (.single rows) = Except.ok out →
      ∃ tabs, vlTabs md stm records pls pids psf keys = Except.ok tabs ∧
        out = .single (foldMutate mutf a d tabs rows) := by
  induction keys with
  | nil =>
    intro rows out h
    simp only [applyMutKeys, Except.ok.injEq] at h
    exact ⟨[], rfl, h.symm⟩
  | cons k rest ih =>
    intro rows out h
    simp only [applyMutKeys, Bind.bind, Except.bind] at h
    split at h
    · exact Except.noConfusion h
    · rename_i vl hvl
      split at h
      · exact Except.noConfusion h
      · rename_i c2 hc2
        have hc2e : c2 = Inputs.single (mutateRows mutf k rows vl a d) := by
          simp only [applyMut, Except.ok.injEq] at hc2
          exact hc2.symm
        subst hc2e
        obtain ⟨tabs, htabs, hout⟩ := ih (mutateRows mutf k rows vl a d) out h
        refine ⟨(k, vl) :: tabs, ?_, ?_⟩
        · simp only [vlTabs, Bind.bind, Except.bind, hvl, htabs]
        · rw [hout]
          rfl

theorem mutateRows_get {ρ : Type} [Inhabited ρ] (mutf : MutFn ρ) (k : String)
    (rows : List ρ) (vl : List PreprocRow) (a d : String)
    (hlen : vl.length = rows.length) :
    (mutateRows mutf k rows vl a d).length = rows.length ∧
    ∀ i, i < rows.length →
      (mutateRows mutf k rows vl a d).getD i default =
        mutf k (rows.getD i default) (vl.getD i default) a d := by
  constructor
  · simp [mutateRows, hlen]
  · intro i hi
    have hi2 : i < vl.length := by rw [hlen]; exact hi
    have hiz : i < (rows.zip vl).length := by
      rw [List.length_zip, hlen]
      simp [hi]
    have him : i < ((rows.zip vl).map
        (fun rv => mutf k rv.1 rv.2 a d)).length := by
      rw [List.length_map]
      exact hiz
    simp only [mutateRows]
    rw [List.getD_eq_getElem?_getD, List.getElem?_eq_getElem him,
      Option.getD_some, List.getElem_map, List.getElem_zip,
      List.getD_eq_getElem?_getD, List.getElem?_eq_getElem hi,
      Option.getD_some, List.getD_eq_getElem?_getD,
      List.getElem?_eq_getElem hi2, Option.getD_some]

theorem foldMutate_spec {ρ : Type} [Inhabited ρ] (mutf : MutFn ρ)
    (a d : String) (tabs : List (String × List PreprocRow)) :
    ∀ rows : List ρ, (∀ kt ∈ tabs, kt.2.length = rows.length) →
      (foldMutate mutf a d tabs rows).length = rows.length ∧
      ∀ i, i < rows.length →
        (foldMutate mutf a d tabs rows).getD i default =
          rowFold mutf a d tabs i (rows.getD i default) := by
  induction tabs with
  | nil =>
    intro rows hlen
    exact ⟨rfl, fun i hi => rfl⟩
  | cons kt rest ih =>
    intro rows hlen
    have hkt : kt.2.length = rows.length := hlen kt (List.mem_cons_self _ _)
    have hrest : ∀ kt2 ∈ rest, kt2.2.length = rows.length :=
      fun kt2 h2 => hlen kt2 (List.mem_cons_of_mem _ h2)
    obtain ⟨hm1, hm2⟩ := mutateRows_get mutf kt.1 rows kt.2 a d hkt
    have hrest2 : ∀ kt2 ∈ rest,
        kt2.2.length = (mutateRows mutf kt.1 rows kt.2 a d).length := by
      intro kt2 h2
      rw [hm1]
      exact hrest kt2 h2
    obtain ⟨ih1, ih2⟩ := ih (mutateRows mutf kt.1 rows kt.2 a d) hrest2
    constructor
    · rw [show foldMutate mutf a d (kt :: rest) rows =
        foldMutate mutf a d rest (mutateRows mutf kt.1 rows kt.2 a d) from rfl,
        ih1, hm1]
    · intro i hi
      rw [show foldMutate mutf a d (kt :: rest) rows =
        foldMutate mutf a d rest (mutateRows mutf kt.1 rows kt.2 a d) from rfl,
        ih2 i (by rw [hm1]; exact hi), hm2 i hi]
      rfl

theorem range_map_getD {ρ : Type} [Inhabited ρ] (rows : List ρ) (n : Nat)
    (hlen : rows.length = n) :
    (List.range n).map (fun l => rows.getD l default) = rows := by
  apply List.ext_getElem?
  intro i
  rw [List.getElem?_map]
  by_cases hi : i < n
  · rw [List.getElem?_range hi]
    have hir : i < rows.length := by rw [hlen]; exact hi
    rw [List.getElem?_eq_getElem hir]
    simp only [Option.map_some']
    rw [List.getD_eq_getElem?_getD, List.getElem?_eq_getElem hir,
      Option.getD_some]
  · rw [List.getElem?_eq_none (by rw [List.length_range]; omega),
      List.getElem?_eq_none (by rw [hlen]; omega)]
    rfl

theorem getD_of_map {α ρ : Type} [Inhabited ρ] [Inhabited α] (f : α → ρ)
    (l : List α) (i : Nat) (hi : i < l.length) :
    (l.map f).getD i default = f (l.getD i default) := by
  have him : i < (l.map f).length := by rw [List.length_map]; exact hi
  rw [List.getD_eq_getElem?_getD, List.getElem?_eq_getElem him,
    Option.getD_some, List.getElem_map, List.getD_eq_getElem?_getD,
    List.getElem?_eq_getElem hi, Option.getD_some]


theorem zip_map_self_zip {α β γ : Type} (l1 : List α) (l2 : List β)
    (g : α × β → γ) :
    ((l1.zip l2).map g).zip l2 = (l1.zip l2).map (fun p => (g p, p.2)) := by
  induction l1 generalizing l2 with
  | nil => simp
  | cons a as ih =>
    cases l2 with
    | nil => simp
    | cons b bs => simp [ih]

theorem applyMut_namedFields {ρ : Type} (mutf : MutFn ρ)
    (schema : SchemaInputs) (cnt : Inputs ρ) (k : String)
    (t : List PreprocRow) (a d : String) (c2 : Inputs ρ)
    (h : applyMut mutf schema cnt k t a d = Except.ok c2) :
    namedFields schema c2 = (namedFields schema cnt).map
      (fun nf => if nfMatch k nf.1 then (nf.1, mutateRows mutf k nf.2 t a d)
        else nf) := by
  cases schema with
  | dict =>
    cases cnt with
    | dict fields =>
      simp only [applyMut] at h
      split at h
      · simp only [Except.ok.injEq] at h
        rw [← h]
        simp only [namedFields, List.map_map]
        apply List.map_congr_left
        intro nr _
        by_cases hk : nr.1 = k
        · simp [Function.comp, hk, nfMatch]
        · simp [Function.comp, hk, nfMatch]
      · exact Except.noConfusion h
    | ordered fs => exact Except.noConfusion h
    | single rows => exact Except.noConfusion h
  | ordered names =>
    cases cnt with
    | dict fields => exact Except.noConfusion h
    | ordered fs =>
      simp only [applyMut, Except.ok.injEq] at h
      rw [← h]
      simp only [namedFields]
      rw [zip_map_self_zip, List.map_map, List.map_map]
      apply List.map_congr_left
      intro rn _
      by_cases hk : rn.2 = k
      · simp [Function.comp, hk, nfMatch]
      · simp [Function.comp, hk, nfMatch]
    | single rows => exact Except.noConfusion h
  | single =>
    cases cnt with
    | dict fields => exact Except.noConfusion h
    | ordered fs => exact Except.noConfusion h
    | single rows =>
      simp only [applyMut, Except.ok.injEq] at h
      rw [← h]
      simp [namedFields, nfMatch]

theorem applyMutKeys_vlTabs {ρ : Type} (mutf : MutFn ρ)
    (schema : SchemaInputs) (md : MetadataDict) (stm : List (String × String))
    (records : List VariantRecord) (pls : List Nat) (pids : List String)
    (psf : List (List String)) (a d : String) (keys : List String) :
    ∀ (cnt out : Inputs ρ),
      applyMutKeys mutf schema md stm records pls pids psf a d keys cnt =
        Except.ok out →
      ∃ tabs, vlTabs md stm records pls pids psf keys = Except.ok tabs := by
  induction keys with
  | nil =>
    intro cnt out h
    exact ⟨[], rfl⟩
  | cons k rest ih =>
    intro cnt out h
    simp only [applyMutKeys, Bind.bind, Except.bind] at h
    split at h
    · exact Except.noConfusion h
    · rename_i vl hvl
      split at h
      · exact Except.noConfusion h
      · rename_i c2 hc2
        obtain ⟨tabs, htabs⟩ := ih c2 out h
        exact ⟨(k, vl) :: tabs, by
          simp only [vlTabs, Bind.bind, Except.bind, hvl, htabs]⟩

theorem tabsFor_mem (n : Option String)
    (tabs : List (String × List PreprocRow)) (kt : String × List PreprocRow)
    (h : kt ∈ tabsFor n tabs) : kt ∈ tabs := by
  cases n with
  | none => exact h
  | some s => exact List.mem_of_mem_filter h

theorem applyMutKeys_namedFields {ρ : Type} (mutf : MutFn ρ)
    (schema : SchemaInputs) (md : MetadataDict) (stm : List (String × String))
    (records : List VariantRecord) (pls : List Nat) (pids : List String)
    (psf : List (List String)) (a d : String) (keys : List String) :
    ∀ (tabs : List (String × List PreprocRow)) (cnt out : Inputs ρ),
      vlTabs md stm records pls pids psf keys = Except.ok tabs →
      applyMutKeys mutf schema md stm records pls pids psf a d keys cnt =
        Except.ok out →
      namedFields schema out = (namedFields schema cnt).map
        (fun nf => (nf.1, foldMutate mutf a d (tabsFor nf.1 tabs) nf.2)) := by
  induction keys with
  | nil =>
    intro tabs cnt out ht h
    simp only [vlTabs, Except.ok.injEq] at ht
    subst ht
    simp only [applyMutKeys, Except.ok.injEq] at h
    subst h
    calc namedFields schema cnt
        = (namedFields schema cnt).map id := (List.map_id _).symm
      _ = (namedFields schema cnt).map
            (fun nf => (nf.1, foldMutate mutf a d (tabsFor nf.1 []) nf.2)) := by
          apply List.map_congr_left
          intro nf _
          cases hn : nf.1 with
          | none =>
            simp only [tabsFor, foldMutate, List.foldl_nil, id]
            rw [← hn]
          | some s =>
            simp only [tabsFor, foldMutate, List.filter_nil, List.foldl_nil,
              id]
            rw [← hn]
  | cons k rest ih =>
    intro tabs cnt out ht h
    simp only [vlTabs, Bind.bind, Except.bind] at ht
    split at ht
    · exact Except.noConfusion ht
    · rename_i t htv
      split at ht
      · exact Except.noConfusion ht
      · rename_i tabs2 htabs2
        simp only [Except.ok.injEq] at ht
        subst ht
        simp only [applyMutKeys, Bind.bind, Except.bind] at h
        split at h
        · exact Except.noConfusion h
        · rename_i vl hvl
          rw [htv] at hvl
          have hvt : t = vl := Except.ok.inj hvl
          subst hvt
          split at h
          · exact Except.noConfusion h
          · rename_i c2 hc2
            have hstep := applyMut_namedFields mutf schema cnt k t a d c2 hc2
            have hrest := ih tabs2 c2 out htabs2 h
            rw [hrest, hstep, List.map_map]
            apply List.map_congr_left
            intro nf _
            by_cases hn : nfMatch k nf.1 = true
            · have hcons : tabsFor nf.1 ((k, t) :: tabs2) =
                  (k, t) :: tabsFor nf.1 tabs2 := by
                cases hnn : nf.1 with
                | none => rfl
                | some s =>
                  rw [hnn] at hn
                  simp only [nfMatch] at hn
                  have hsk : s = k := of_decide_eq_true hn
                  simp [tabsFor, hsk]
              simp only [Function.comp_apply, if_pos hn]
              rw [hcons]
              rfl
            · have hskip : tabsFor nf.1 ((k, t) :: tabs2) =
                  tabsFor nf.1 tabs2 := by
                cases hnn : nf.1 with
                | none =>
                  rw [hnn] at hn
                  simp [nfMatch] at hn
                | some s =>
                  rw [hnn] at hn
                  simp only [nfMatch, decide_eq_true_eq] at hn
                  have hks : ¬(k = s) := fun he => hn he.symm
                  simp [tabsFor, hks]
              simp only [Function.comp_apply, if_neg hn]
              rw [hskip]

theorem namedFields_select {ρ : Type} [Inhabited ρ] (schema : SchemaInputs)
    (inputs : Inputs ρ) (pls : List Nat) :
    namedFields schema (select_from_dl_batch inputs pls) =
      (namedFields schema inputs).map
        (fun nf => (nf.1, pls.map (fun l => nf.2.getD l default))) := by
  cases schema with
  | dict =>
    cases inputs with
    | dict fields =>
      simp only [select_from_dl_batch, namedFields, List.map_map]
      apply List.map_congr_left
      intro nr _
      simp [Function.comp]
    | ordered fs => rfl
    | single rows => rfl
  | ordered names =>
    cases inputs with
    | dict fields => rfl
    | ordered fs =>
      simp only [select_from_dl_batch, namedFields]
      rw [List.zip_map_left, List.map_map, List.map_map]
      apply List.map_congr_left
      intro rn _
      simp [Function.comp, Prod.map]
    | single rows => rfl
  | single =>
    cases inputs with
    | dict fields => rfl
    | ordered fs => rfl
    | single rows => simp [select_from_dl_batch, namedFields]

theorem findAndConsume_gen (gen : VariantRecord → String) (rid : String) :
    ∀ (stream : List VariantRecord) (record : VariantRecord)
      (stream2 : List VariantRecord),
      findAndConsume gen rid stream = some (record, stream2) →
      gen record = rid := by
  intro stream
  induction stream with
  | nil =>
    intro record s2 h
    exact Option.noConfusion h
  | cons r0 rs ih =>
    intro record s2 h
    simp only [findAndConsume] at h
    split at h
    · rename_i hgen
      simp only [Option.some.injEq, Prod.mk.injEq] at h
      rw [← h.1]
      exact hgen
    · exact ih record s2 h

theorem sequentialGo_spec (gen : VariantRecord → String) (l : List String) :
    ∀ (i : Nat) (stream : List VariantRecord) (recs : List VariantRecord)
      (spids : List String) (slines : List Nat),
      sequentialGo gen l i stream = (recs, spids, slines) →
      spids.length = recs.length ∧ slines.length = recs.length ∧
      ∀ j, j < recs.length →
        ∃ k, slines.get? j = some (i + k) ∧ spids.get? j = l.get? k ∧
          ∃ r, recs.get? j = some r ∧ gen r = spids.getD j "" := by
  induction l with
  | nil =>
    intro i stream recs spids slines h
    simp only [sequentialGo, Prod.mk.injEq] at h
    obtain ⟨h1, h2, h3⟩ := h
    subst h1
    subst h2
    subst h3
    exact ⟨rfl, rfl, fun j hj => absurd hj (by simp)⟩
  | cons rid rest ih =>
    intro i stream recs spids slines h
    cases hf : findAndConsume gen rid stream with
    | none =>
      have h2 : sequentialGo gen (rid :: rest) i stream =
          sequentialGo gen rest (i + 1) [] := by
        simp only [sequentialGo, hf]
      rw [h2] at h
      obtain ⟨s1, s2, s3⟩ := ih (i + 1) [] recs spids slines h
      refine ⟨s1, s2, ?_⟩
      intro j hj
      obtain ⟨k, hk1, hk2, r, hr1, hr2⟩ := s3 j hj
      refine ⟨k + 1, ?_, ?_, r, hr1, hr2⟩
      · rw [hk1]
        congr 1
        omega
      · rw [hk2, List.get?_cons_succ]
    | some p =>
      obtain ⟨record, stream2⟩ := p
      rcases hsg : sequentialGo gen rest (i + 1) stream2 with ⟨ra, rb, rc2⟩
      have h2 : sequentialGo gen (rid :: rest) i stream =
          (record :: ra, rid :: rb, i :: rc2) := by
        simp only [sequentialGo, hf, hsg]
      rw [h2] at h
      simp only [Prod.mk.injEq] at h
      obtain ⟨h1, h2b, h3⟩ := h
      subst h1
      subst h2b
      subst h3
      obtain ⟨s1, s2, s3⟩ := ih (i + 1) stream2 ra rb rc2 hsg
      refine ⟨by simp [s1], by simp [s2], ?_⟩
      intro j hj
      cases j with
      | zero =>
        refine ⟨0, by simp, by simp, record, rfl, ?_⟩
        exact findAndConsume_gen gen rid stream record stream2 hf
      | succ j2 =>
        have hj2 : j2 < ra.length := by
          simp only [List.length_cons] at hj
          omega
        obtain ⟨k, hk1, hk2, r, hr1, hr2⟩ := s3 j2 hj2
        refine ⟨k + 1, ?_, ?_, r, ?_, ?_⟩
        · rw [List.get?_cons_succ, hk1]
          congr 1
          omega
        · rw [List.get?_cons_succ, List.get?_cons_succ]
          exact hk2
        · rw [List.get?_cons_succ]
          exact hr1
        · exact hr2

theorem sequential_vcf_spec (md : MetadataDict) (stm : List (String × String))
    (vcf : VcfHandle) (gen : VariantRecord → String) (f0 : String)
    (r0 : Ranges) (recs : List VariantRecord) (lines : List Nat)
    (metas : List (List String)) (pids : List String)
    (hf0 : (all_meta_fields_of stm).head? = some f0)
    (hr0 : lookupRanges md f0 = Except.ok r0)
    (h : get_variants_in_regions_sequential_vcf md stm vcf gen =
      Except.ok (recs, lines, metas, pids)) :
    ∃ ids0, r0.id = some ids0 ∧
      lines.length = recs.length ∧ metas.length = recs.length ∧
      pids.length = recs.length ∧
      (∀ j, j < lines.length → pids.get? j = ids0.get? (lines.getD j 0)) ∧
      (∀ j, j < lines.length → ∃ r, recs.get? j = some r ∧
        gen r = pids.getD j "") := by
  simp only [get_variants_in_regions_sequential_vcf, hf0, hr0, expectOr,
    Bind.bind, Except.bind] at h
  split at h
  · exact Except.noConfusion h
  · rename_i u hagree
    cases hids : r0.id with
    | none =>
      rw [hids] at h
      exact Except.noConfusion h
    | some ids0 =>
      rw [hids] at h
      simp only [Except.ok.injEq, Prod.mk.injEq] at h
      rcases hsg : sequentialGo gen ids0 0 vcf.records with ⟨ra, rb, rc2⟩
      rw [hsg] at h
      obtain ⟨h1, h2, h3, h4⟩ := h
      have e1 : ra = recs := h1
      have e2 : rc2 = lines := h2
      have e4 : rb = pids := h4
      subst e1
      subst e2
      subst e4
      obtain ⟨s1, s2, s3⟩ := sequentialGo_spec gen ids0 0 vcf.records ra rb
        rc2 hsg
      refine ⟨ids0, rfl, s2, ?_, s1, ?_, ?_⟩
      · rw [← h3]
        simp [s2]
      · intro j hj
        rw [s2] at hj
        obtain ⟨k, hk1, hk2, r, hr1, hr2⟩ := s3 j hj
        have hkd : rc2.getD j 0 = k := by
          rw [List.getD_eq_getElem?_getD, ← List.get?_eq_getElem?, hk1]
          simp
        rw [hkd, hk2]
      · intro j hj
        rw [s2] at hj
        obtain ⟨k, hk1, hk2, r, hr1, hr2⟩ := s3 j hj
        exact ⟨r, hr1, hr2⟩

theorem mutateAllKeys_posConsistent {ρ : Type} [Inhabited ρ] (mutf : MutFn ρ)
    (schema : SchemaInputs) (md : MetadataDict) (stm : List (String × String))
    (recs : List VariantRecord) (lines : List Nat) (pids : List String)
    (metas : List (List String)) (num : Nat) (inputs ds : Inputs ρ)
    (cs0 cs : ComboSet ρ) (rc : Bool)
    (hflen : ∀ nf ∈ namedFields schema inputs, nf.2.length = num)
    (hds : ds = if lines ≠ List.range num then
      select_from_dl_batch inputs lines else inputs)
    (hcs0 : cs0 = ⟨ds, ds, if rc then some ds else none,
      if rc then some ds else none⟩)
    (hmut : mutateAllKeys mutf schema md stm recs lines pids metas
      (dedupKeepFirst metas.flatten) cs0 = Except.ok cs)
    (hlr1 : lines.length = recs.length) :
    ∃ tabs, vlTabs md stm recs lines pids metas
        (dedupKeepFirst metas.flatten) = Except.ok tabs ∧
      (∀ kt ∈ tabs, kt.2.length = recs.length) ∧
      posConsistent mutf "ref" "fwd" schema tabs lines inputs cs.fwd_ref ∧
      posConsistent mutf "alt" "fwd" schema tabs lines inputs cs.fwd_alt ∧
      (rc = true → ∃ cr ca, cs.rc_ref = some cr ∧ cs.rc_alt = some ca ∧
        posConsistent mutf "ref" "rc" schema tabs lines inputs cr ∧
        posConsistent mutf "alt" "rc" schema tabs lines inputs ca) ∧
      (rc = false → cs.rc_ref = none ∧ cs.rc_alt = none) := by
  subst hcs0
  obtain ⟨d1, d2, d3n, d3s, d4n, d4s⟩ :=
    mutateAllKeys_decompose mutf schema md stm recs lines pids metas
      (dedupKeepFirst metas.flatten) _ cs hmut
  obtain ⟨tabs, htabs⟩ :=
    applyMutKeys_vlTabs mutf schema md stm recs lines pids metas "ref" "fwd"
      (dedupKeepFirst metas.flatten) ds cs.fwd_ref d1
  have htlen := vlTabs_lengths md stm recs lines pids metas
    (dedupKeepFirst metas.flatten) tabs htabs
  have hnds : namedFields schema ds = (namedFields schema inputs).map
      (fun nf => (nf.1, lines.map (fun l => nf.2.getD l default))) := by
    rw [hds]
    by_cases hl : lines = List.range num
    · rw [if_neg (not_not_intro hl)]
      symm
      calc (namedFields schema inputs).map
            (fun nf => (nf.1, lines.map (fun l => nf.2.getD l default)))
          = (namedFields schema inputs).map id := by
            apply List.map_congr_left
            intro nf hnf
            rw [hl, range_map_getD nf.2 num (hflen nf hnf)]
            exact Prod.mk.eta
        _ = namedFields schema inputs := List.map_id _
    · rw [if_pos hl]
      exact namedFields_select schema inputs lines
  have hpos : ∀ (a d : String) (cnt : Inputs ρ),
      applyMutKeys mutf schema md stm recs lines pids metas a d
        (dedupKeepFirst metas.flatten) ds = Except.ok cnt →
      posConsistent mutf a d schema tabs lines inputs cnt := by
    intro a d cnt hak
    have hnf := applyMutKeys_namedFields mutf schema md stm recs lines pids
      metas a d (dedupKeepFirst metas.flatten) tabs ds cnt htabs hak
    rw [hnds, List.map_map] at hnf
    constructor
    · rw [hnf, List.length_map]
    · intro j n rows hget
      have hts : ∀ kt ∈ tabsFor n tabs,
          kt.2.length = (lines.map (fun l => rows.getD l default)).length := by
        intro kt hkt
        rw [List.length_map, htlen kt (tabsFor_mem n tabs kt hkt), hlr1]
      refine ⟨foldMutate mutf a d (tabsFor n tabs)
        (lines.map (fun l => rows.getD l default)), ?_, ?_, ?_⟩
      · rw [hnf, List.get?_eq_getElem?, List.getElem?_map,
          ← List.get?_eq_getElem?, hget]
        rfl
      · rw [(foldMutate_spec mutf a d (tabsFor n tabs) _ hts).1,
          List.length_map]
      · intro i hi
        have hi2 : i < (lines.map (fun l => rows.getD l default)).length := by
          rw [List.length_map]
          exact hi
        rw [(foldMutate_spec mutf a d (tabsFor n tabs) _ hts).2 i hi2]
        congr 1
        exact getD_of_map _ lines i hi
  refine ⟨tabs, htabs, htlen, hpos "ref" "fwd" cs.fwd_ref d1,
    hpos "alt" "fwd" cs.fwd_alt d2, ?_, ?_⟩
  · intro hrc
    subst hrc
    obtain ⟨cr, hcsr, hchr⟩ := d3s ds rfl
    obtain ⟨ca, hcsa, hcha⟩ := d4s ds rfl
    exact ⟨cr, ca, hcsr, hcsa, hpos "ref" "rc" cr hchr,
      hpos "alt" "rc" ca hcha⟩
  · intro hrc
    subst hrc
    exact ⟨d3n rfl, d4n rfl⟩

/-- C2: positional consistency of the sequence-set generator, for every
input container shape (named mapping, ordered sequence of named fields,
single unnamed field — uniformly through `namedFields`) and for both
variant-matching strategies.  Naming every intermediate of a successful run
with a non-empty assignment list: the run returns exactly the mutated copies
together with `process_ids` as `line_id` and the assignment records as
`vcf_records`; the returned lists are parallel (`lines`, `metas`, `pids` and
the localisation table of every sequence key all have the length of
`vcf_records`); row `i` of `line_id` is the identifier of sample row
`lines[i]` (the allocator/native identifier under the search strategy, the
region identifier — which the matched record's generated identifier equals —
under the sequential strategy); and every direction/allele copy is
positionally consistent: each of its fields carries, at row `i`, the
original field's row for sample `lines[i]` transformed by exactly the keys
that apply to that field, each reading row `i` of its own localisation
table. -/
theorem C2_positional_consistency {ρ : Type} [Inhabited ρ]
    (schema : SchemaInputs) (inputs : Inputs ρ) (md : MetadataDict)
    (vcf : VcfHandle) (gen : VariantRecord → String) (mutf : MutFn ρ)
    (stm : List (String × String)) (c : SampleCounter) (search rc : Bool)
    (f0 : String) (r0 : Ranges) (mids : List String) (c2 : SampleCounter)
    (recs : List VariantRecord) (lines : List Nat)
    (metas : List (List String)) (pids : List String) (ds : Inputs ρ)
    (cs0 cs : ComboSet ρ)
    (hf0 : (all_meta_fields_of stm).head? = some f0)
    (hr0 : lookupRanges md f0 = Except.ok r0)
    (hchoose : chooseMetadataIds md c r0.chr.length = Except.ok (mids, c2))
    (hstrat : (search = true ∧
        get_variants_in_regions_search_vcf md stm vcf =
          Except.ok (recs, lines, metas) ∧
        buildProcessIds mids lines = Except.ok pids) ∨
      (search = false ∧
        get_variants_in_regions_sequential_vcf md stm vcf gen =
          Except.ok (recs, lines, metas, pids)))
    (hne : lines ≠ [])
    (hflen : ∀ nf ∈ namedFields schema inputs, nf.2.length = r0.chr.length)
    (hds : ds = if lines ≠ List.range r0.chr.length then
      select_from_dl_batch inputs lines else inputs)
    (hcs0 : cs0 = ⟨ds, ds, if rc then some ds else none,
      if rc then some ds else none⟩)
    (hmut : mutateAllKeys mutf schema md stm recs lines pids metas
      (dedupKeepFirst metas.flatten) cs0 = Except.ok cs) :
    _generate_seq_sets schema ⟨inputs, md⟩ vcf gen mutf stm c search rc =
      Except.ok (some ⟨cs.fwd_ref, cs.fwd_alt, cs.rc_ref, cs.rc_alt,
        pids, recs⟩, c2) ∧
    lines.length = recs.length ∧ metas.length = recs.length ∧
    pids.length = lines.length ∧
    (search = true → ∀ i, i < lines.length →
      pids.get? i = mids.get? (lines.getD i 0)) ∧
    (search = false → ∃ ids0, r0.id = some ids0 ∧
      (∀ i, i < lines.length → pids.get? i = ids0.get? (lines.getD i 0)) ∧
      (∀ i, i < lines.length → ∃ r, recs.get? i = some r ∧
        gen r = pids.getD i "")) ∧
    ∃ tabs, vlTabs md stm recs lines pids metas
        (dedupKeepFirst metas.flatten) = Except.ok tabs ∧
      (∀ kt ∈ tabs, kt.2.length = recs.length) ∧
      posConsistent mutf "ref" "fwd" schema tabs lines inputs cs.fwd_ref ∧
      posConsistent mutf "alt" "fwd" schema tabs lines inputs cs.fwd_alt ∧
      (rc = true → ∃ cr ca, cs.rc_ref = some cr ∧ cs.rc_alt = some ca ∧
        posConsistent mutf "ref" "rc" schema tabs lines inputs cr ∧
        posConsistent mutf "alt" "rc" schema tabs lines inputs ca) ∧
      (rc = false → cs.rc_ref = none ∧ cs.rc_alt = none) := by
  have hempty : lines.isEmpty = false := by
    cases lines with
    | nil => exact absurd rfl hne
    | cons a l => rfl
  rcases hstrat with ⟨hsf, hsearch, hpids⟩ | ⟨hsf, hseq⟩
  · subst hsf
    obtain ⟨hlr1, hlr2⟩ :=
      search_vcf_lengths md stm vcf recs lines metas hsearch
    obtain ⟨hbp1, hbp2⟩ := buildProcessIds_spec mids lines pids hpids
    obtain ⟨tabs, htabs, htlen, hp1, hp2, hprc, hprcn⟩ :=
      mutateAllKeys_posConsistent mutf schema md stm recs lines pids metas
        r0.chr.length inputs ds cs0 cs rc hflen hds hcs0 hmut hlr1
    subst hcs0
    refine ⟨?_, hlr1, hlr2, hbp1, fun _ => hbp2,
      fun h => Bool.noConfusion h,
      tabs, htabs, htlen, hp1, hp2, hprc, hprcn⟩
    simp only [_generate_seq_sets, hf0, hr0, hchoose, hsearch, expectOr,
      Bind.bind, Except.bind, pure, Except.pure, hempty, hpids, ← hds, hmut]
    simp
  · subst hsf
    obtain ⟨ids0, hids0, hlr1, hlr2, hplen, hpid, hrecid⟩ :=
      sequential_vcf_spec md stm vcf gen f0 r0 recs lines metas pids
        hf0 hr0 hseq
    obtain ⟨tabs, htabs, htlen, hp1, hp2, hprc, hprcn⟩ :=
      mutateAllKeys_posConsistent mutf schema md stm recs lines pids metas
        r0.chr.length inputs ds cs0 cs rc hflen hds hcs0 hmut hlr1
    subst hcs0
    refine ⟨?_, hlr1, hlr2, hplen.trans hlr1.symm,
      fun h => Bool.noConfusion h,
      fun _ => ⟨ids0, hids0, hpid, hrecid⟩,
      tabs, htabs, htlen, hp1, hp2, hprc, hprcn⟩
    simp only [_generate_seq_sets, hf0, hr0, hchoose, hseq, expectOr,
      Bind.bind, Except.bind, pure, Except.pure, hempty, ← hds, hmut]
    simp

theorem C2_witness :
    _generate_seq_sets .dict
        ⟨Inputs.dict [("seq1", ["r0", "r1"])],
         [("m1", .ranges ⟨["chr1", "chr1"], [0, 50], [10, 60], .absent,
           none⟩)]⟩
        ⟨["chr1"], [⟨"chr1", 55, "A", "G", "v1"⟩]⟩ (fun r => r.rid)
        (fun _ r _ a _ => r ++ a : MutFn String) [("seq1", "m1")] ⟨0⟩
        true false =
      Except.ok (some ⟨Inputs.dict [("seq1", ["r1ref"])],
        Inputs.dict [("seq1", ["r1alt"])], none, none,
        ["1"], [⟨"chr1", 55, "A", "G", "v1"⟩]⟩, ⟨2⟩) :=
  (C2_positional_consistency .dict (Inputs.dict [("seq1", ["r0", "r1"])])
    [("m1", .ranges ⟨["chr1", "chr1"], [0, 50], [10, 60], .absent, none⟩)]
    ⟨["chr1"], [⟨"chr1", 55, "A", "G", "v1"⟩]⟩ (fun r => r.rid)
    (fun _ r _ a _ => r ++ a : MutFn String) [("seq1", "m1")] ⟨0⟩ true false
    "m1" ⟨["chr1", "chr1"], [0, 50], [10, 60], .absent, none⟩
    ["0", "1"] ⟨2⟩
    [⟨"chr1", 55, "A", "G", "v1"⟩] [1] [["seq1"]] ["1"]
    (Inputs.dict [("seq1", ["r1"])])
    ⟨Inputs.dict [("seq1", ["r1"])], Inputs.dict [("seq1", ["r1"])],
      none, none⟩
    ⟨Inputs.dict [("seq1", ["r1ref"])], Inputs.dict [("seq1", ["r1alt"])],
      none, none⟩
    rfl rfl rfl (Or.inl ⟨rfl, rfl, rfl⟩) (by decide) (by decide)
    rfl rfl rfl).1
